import Mathlib

/-!
# Verification of the expenses-tracker budget engine and tabular store

Shallow embedding of the Go sources of `goofy-ahh-expenses-tracker`:
`internal/data/csv.go` (tabular store), `internal/bot/bot.go` (cycle
calculator, saldo/report/export handlers, bulk CSV upload) and
`internal/web/server.go` (CSV upload, graph-data series builder).

Modelling conventions:
* `float64` currency amounts are modelled as `ℚ` (exact arithmetic on
  decimal values; the claims under verification are arithmetic
  identities, not rounding statements).
* `time.Time` values at midnight in the configured location are
  modelled as civil dates (`CivilDate`).  Comparison/subtraction of
  such instants is modelled through `toRataDie`, a day-numbering of the
  proleptic Gregorian calendar; `t2.Sub(t1).Hours()/24` becomes
  `toRataDie d2 - toRataDie d1` (exact in a DST-free location; the
  configured default is UTC).
* Go's `time.Date(y, m, d, ...)` normalisation (month overflow into the
  year, day overflow into the following month) is `mkDate`; all call
  sites in this program pass `d ≤ 31`, for which the single
  day-overflow step of `mkDate` coincides with Go's normalisation.
* The `encoding/csv` layer is modelled by the record lists it
  encodes/decodes (`List (List String)`): `csv.Writer` writes one
  record per row, `csv.Reader.ReadAll` yields the records and fails
  when rows have inconsistent field counts
  (`readAllFieldsConsistent`).
* `strconv.ParseFloat` is modelled on its plain decimal fragment
  (optional sign, digits, optional fractional part), the only fragment
  this program produces or documents.
-/

/-- A civil (proleptic Gregorian) calendar date, the model of a Go
`time.Time` at midnight in the configured location. -/
structure CivilDate where
  year : Int
  month : Nat
  day : Nat
deriving DecidableEq, Repr

/-- Gregorian leap-year rule, as in Go `time.isLeap`. -/
def isLeap (y : Int) : Bool :=
  y % 4 == 0 && (y % 100 != 0 || y % 400 == 0)

/-- Length of a month, as in Go `time.daysIn`. -/
def daysInMonth (y : Int) (m : Nat) : Nat :=
  if m = 2 then (if isLeap y then 29 else 28)
  else if m = 4 ∨ m = 6 ∨ m = 9 ∨ m = 11 then 30
  else 31

/-- The date has a month in 1..12 and a day within the month. -/
def CivilDate.valid (dt : CivilDate) : Prop :=
  1 ≤ dt.month ∧ dt.month ≤ 12 ∧ 1 ≤ dt.day ∧ dt.day ≤ daysInMonth dt.year dt.month

instance (dt : CivilDate) : Decidable dt.valid := by
  unfold CivilDate.valid; infer_instance

/-- Day number of a civil date (days-from-civil formula; March-based
months).  Differences of `toRataDie` model differences of Go absolute
times measured in whole days, and `<` on `toRataDie` models
`Time.Before`/`Time.After` for midnights in one location. -/
def toRataDie (dt : CivilDate) : Int :=
  let y : Int := if dt.month ≤ 2 then dt.year - 1 else dt.year
  let m : Int := if dt.month ≤ 2 then (dt.month : Int) + 9 else (dt.month : Int) - 3
  365 * y + y / 4 - y / 100 + y / 400 + (153 * m + 2) / 5 + (dt.day : Int) - 1

/-- Month/year normalisation of Go `time.Date`: bring a (possibly
out-of-range) month count into 1..12, carrying whole years. -/
def normYM (y m : Int) : Int × Int :=
  (y + (m - 1) / 12, (m - 1) % 12 + 1)

/-- Model of Go `time.Date(y, m, d, 0, 0, 0, 0, loc)`: normalise the
month, then roll a day overflow into the following month.  Every call
site in this program passes `d ≤ 31`, where the excess over the month
length is at most 3 and a single overflow step is exactly Go's
normalisation. -/
def mkDate (y m : Int) (d : Nat) : CivilDate :=
  let y' := y + (m - 1) / 12
  let m' := ((m - 1) % 12 + 1).toNat
  if d > daysInMonth y' m' then
    if m' = 12 then ⟨y' + 1, 1, d - daysInMonth y' m'⟩
    else ⟨y', m' + 1, d - daysInMonth y' m'⟩
  else ⟨y', m', d⟩

/-- Model of `t.AddDate(0, 0, 1)`: the next calendar day. -/
def nextDay (dt : CivilDate) : CivilDate :=
  mkDate dt.year (dt.month : Int) (dt.day + 1)

/-- Model of `t.AddDate(0, k, 0)`: shift by `k` calendar months with
Go's normalisation. -/
def addDateMonths (dt : CivilDate) (k : Int) : CivilDate :=
  mkDate dt.year ((dt.month : Int) + k) dt.day

/-- Lexicographic order on (year, month, day): the calendar order. -/
def dateLex (a b : CivilDate) : Prop :=
  a.year < b.year ∨ (a.year = b.year ∧
    (a.month < b.month ∨ (a.month = b.month ∧ a.day < b.day)))

-- ### Calendar lemmas

theorem isLeap_iff (y : Int) :
    isLeap y = true ↔ (y % 4 = 0 ∧ (y % 100 ≠ 0 ∨ y % 400 = 0)) := by
  simp [isLeap]

theorem daysInMonth_le_31 (y : Int) (m : Nat) : daysInMonth y m ≤ 31 := by
  unfold daysInMonth; split_ifs <;> omega

theorem le_daysInMonth (y : Int) (m : Nat) : 28 ≤ daysInMonth y m := by
  unfold daysInMonth; split_ifs <;> omega

theorem mkDate_eq_of_fit (y : Int) (m : Int) (d : Nat)
    (h1 : 1 ≤ m) (h2 : m ≤ 12)
    (hd : d ≤ daysInMonth y m.toNat) :
    mkDate y m d = ⟨y, m.toNat, d⟩ := by
  have e1 : (m - 1) / 12 = 0 := by omega
  have e2 : (m - 1) % 12 + 1 = m := by omega
  unfold mkDate
  rw [e1, e2]
  simp only [add_zero]
  rw [if_neg]
  omega

theorem rd_day (y : Int) (m : Nat) (d : Nat) :
    toRataDie ⟨y, m, d⟩ = toRataDie ⟨y, m, 1⟩ + d - 1 := by
  unfold toRataDie
  split_ifs <;> push_cast <;> omega

theorem rd_month_step (y : Int) (m : Nat) (h1 : 1 ≤ m) (h2 : m ≤ 11) :
    toRataDie ⟨y, m + 1, 1⟩ = toRataDie ⟨y, m, 1⟩ + daysInMonth y m := by
  interval_cases m <;>
    simp only [toRataDie, daysInMonth, isLeap] <;>
    norm_num <;>
    omega

theorem rd_year_step (y : Int) :
    toRataDie ⟨y + 1, 1, 1⟩ = toRataDie ⟨y, 12, 1⟩ + 31 := by
  simp only [toRataDie]
  norm_num
  omega

theorem rd_month_le (y : Int) (m1 m2 : Nat)
    (h1 : 1 ≤ m1) (h12 : m1 ≤ m2) (h2 : m2 ≤ 12) :
    toRataDie ⟨y, m1, 1⟩ ≤ toRataDie ⟨y, m2, 1⟩ := by
  obtain ⟨k, rfl⟩ : ∃ k, m2 = m1 + k := ⟨m2 - m1, by omega⟩
  clear h12
  induction k with
  | zero => exact le_refl _
  | succ n ih =>
    have hstep : toRataDie ⟨y, m1 + n + 1, 1⟩
        = toRataDie ⟨y, m1 + n, 1⟩ + daysInMonth y (m1 + n) :=
      rd_month_step y (m1 + n) (by omega) (by omega)
    have harr : m1 + (n + 1) = m1 + n + 1 := by omega
    rw [harr]
    have := ih (by omega)
    have := le_daysInMonth y (m1 + n)
    omega

theorem rd_lt_next_jan (dt : CivilDate) (h : dt.valid) :
    toRataDie dt < toRataDie ⟨dt.year + 1, 1, 1⟩ := by
  obtain ⟨h1, h2, h3, h4⟩ := h
  have hle : toRataDie ⟨dt.year, dt.month, 1⟩ ≤ toRataDie ⟨dt.year, 12, 1⟩ :=
    rd_month_le dt.year dt.month 12 h1 h2 (le_refl _)
  have hys := rd_year_step dt.year
  have hday : toRataDie ⟨dt.year, dt.month, dt.day⟩
      = toRataDie ⟨dt.year, dt.month, 1⟩ + dt.day - 1 := rd_day _ _ _
  have h31 := daysInMonth_le_31 dt.year dt.month
  have heta : toRataDie ⟨dt.year, dt.month, dt.day⟩ = toRataDie dt := rfl
  omega

theorem rd_jan_mono (y y' : Int) (h : y ≤ y') :
    toRataDie ⟨y, 1, 1⟩ ≤ toRataDie ⟨y', 1, 1⟩ := by
  simp only [toRataDie]
  norm_num
  omega

theorem rd_jan_le (dt : CivilDate) (h : dt.valid) :
    toRataDie ⟨dt.year, 1, 1⟩ ≤ toRataDie dt := by
  obtain ⟨h1, h2, h3, h4⟩ := h
  have hle : toRataDie ⟨dt.year, 1, 1⟩ ≤ toRataDie ⟨dt.year, dt.month, 1⟩ :=
    rd_month_le dt.year 1 dt.month (le_refl _) h1 h2
  have hday : toRataDie ⟨dt.year, dt.month, dt.day⟩
      = toRataDie ⟨dt.year, dt.month, 1⟩ + dt.day - 1 := rd_day _ _ _
  have heta : toRataDie ⟨dt.year, dt.month, dt.day⟩ = toRataDie dt := rfl
  omega

theorem rd_strict_mono (a b : CivilDate) (ha : a.valid) (hb : b.valid)
    (h : dateLex a b) : toRataDie a < toRataDie b := by
  obtain ⟨ha1, ha2, ha3, ha4⟩ := ha
  obtain ⟨hb1, hb2, hb3, hb4⟩ := hb
  have hea : toRataDie ⟨a.year, a.month, a.day⟩ = toRataDie a := rfl
  have heb : toRataDie ⟨b.year, b.month, b.day⟩ = toRataDie b := rfl
  rcases h with hy | ⟨hy, hm | ⟨hm, hd⟩⟩
  · have h1 : toRataDie a < toRataDie ⟨a.year + 1, 1, 1⟩ :=
      rd_lt_next_jan a ⟨ha1, ha2, ha3, ha4⟩
    have h2 : toRataDie ⟨a.year + 1, 1, 1⟩ ≤ toRataDie ⟨b.year, 1, 1⟩ :=
      rd_jan_mono _ _ (by omega)
    have h3 : toRataDie ⟨b.year, 1, 1⟩ ≤ toRataDie b :=
      rd_jan_le b ⟨hb1, hb2, hb3, hb4⟩
    omega
  · have hstep : toRataDie ⟨a.year, a.month + 1, 1⟩
        = toRataDie ⟨a.year, a.month, 1⟩ + daysInMonth a.year a.month :=
      rd_month_step a.year a.month ha1 (by omega)
    have hle : toRataDie ⟨a.year, a.month + 1, 1⟩ ≤ toRataDie ⟨a.year, b.month, 1⟩ :=
      rd_month_le a.year (a.month + 1) b.month (by omega) (by omega) hb2
    have hda := rd_day a.year a.month a.day
    have hdb := rd_day b.year b.month b.day
    rw [hea] at hda
    rw [heb] at hdb
    rw [hy] at hle hstep hda ha4
    omega
  · have hda := rd_day a.year a.month a.day
    have hdb := rd_day b.year b.month b.day
    rw [hea] at hda
    rw [heb] at hdb
    rw [hy, hm] at hda
    omega

theorem rd_lt_iff (a b : CivilDate) (ha : a.valid) (hb : b.valid) :
    toRataDie a < toRataDie b ↔ dateLex a b := by
  constructor
  · intro h
    by_contra hlex
    rcases Nat.lt_trichotomy a.month b.month with hm | hm | hm <;>
    rcases Int.lt_trichotomy a.year b.year with hy | hy | hy <;>
    rcases Nat.lt_trichotomy a.day b.day with hd | hd | hd <;>
      first
      | exact hlex (Or.inl hy)
      | exact hlex (Or.inr ⟨hy, Or.inl hm⟩)
      | exact hlex (Or.inr ⟨hy, Or.inr ⟨hm, hd⟩⟩)
      | · have : toRataDie b < toRataDie a := by
            apply rd_strict_mono b a hb ha
            unfold dateLex
            omega
          omega
      | · have hab : a = b := by
            cases a; cases b
            simp_all
          rw [hab] at h
          omega
  · exact rd_strict_mono a b ha hb

theorem rd_inj (a b : CivilDate) (ha : a.valid) (hb : b.valid)
    (h : toRataDie a = toRataDie b) : a = b := by
  by_contra hne
  have tri : dateLex a b ∨ dateLex b a := by
    unfold dateLex
    rcases Int.lt_trichotomy a.year b.year with hy | hy | hy
    · exact Or.inl (Or.inl hy)
    · rcases Nat.lt_trichotomy a.month b.month with hm | hm | hm
      · exact Or.inl (Or.inr ⟨hy, Or.inl hm⟩)
      · rcases Nat.lt_trichotomy a.day b.day with hd | hd | hd
        · exact Or.inl (Or.inr ⟨hy, Or.inr ⟨hm, hd⟩⟩)
        · exact absurd (by cases a; cases b; simp_all : a = b) hne
        · exact Or.inr (Or.inr ⟨hy.symm, Or.inr ⟨hm.symm, hd⟩⟩)
      · exact Or.inr (Or.inr ⟨hy.symm, Or.inl hm⟩)
    · exact Or.inr (Or.inl hy)
  rcases tri with ht | ht
  · have := rd_strict_mono a b ha hb ht; omega
  · have := rd_strict_mono b a hb ha ht; omega

theorem mkDate_nat_fit (y : Int) (m d : Nat) (h1 : 1 ≤ m) (h2 : m ≤ 12)
    (hd : d ≤ daysInMonth y m) : mkDate y (m : Int) d = ⟨y, m, d⟩ := by
  have e1 : ((m : Int) - 1) / 12 = 0 := by omega
  have e2 : ((m : Int) - 1) % 12 + 1 = (m : Int) := by omega
  simp only [mkDate, e1, e2, add_zero, Int.toNat_natCast]
  rw [if_neg]
  omega

theorem mkDate_nat_overflow (y : Int) (m d : Nat) (h1 : 1 ≤ m) (h2 : m ≤ 12)
    (hd : d > daysInMonth y m) :
    mkDate y (m : Int) d =
      if m = 12 then ⟨y + 1, 1, d - daysInMonth y m⟩
      else ⟨y, m + 1, d - daysInMonth y m⟩ := by
  have e1 : ((m : Int) - 1) / 12 = 0 := by omega
  have e2 : ((m : Int) - 1) % 12 + 1 = (m : Int) := by omega
  simp only [mkDate, e1, e2, add_zero, Int.toNat_natCast]
  rw [if_pos hd]

theorem rd_nextDay (dt : CivilDate) (h : dt.valid) :
    toRataDie (nextDay dt) = toRataDie dt + 1 := by
  obtain ⟨h1, h2, h3, h4⟩ := h
  have heta : toRataDie ⟨dt.year, dt.month, dt.day⟩ = toRataDie dt := rfl
  unfold nextDay
  by_cases hov : dt.day + 1 ≤ daysInMonth dt.year dt.month
  · rw [mkDate_nat_fit dt.year dt.month (dt.day + 1) h1 h2 hov]
    have ha := rd_day dt.year dt.month (dt.day + 1)
    have hb := rd_day dt.year dt.month dt.day
    omega
  · rw [mkDate_nat_overflow dt.year dt.month (dt.day + 1) h1 h2 (by omega)]
    have hday : dt.day = daysInMonth dt.year dt.month := by omega
    by_cases h12 : dt.month = 12
    · rw [if_pos h12]
      have hys := rd_year_step dt.year
      have hb := rd_day dt.year dt.month dt.day
      have hd12 : daysInMonth dt.year 12 = 31 := by unfold daysInMonth; norm_num
      rw [h12] at hb hday heta ⊢
      have he1 : dt.day + 1 - daysInMonth dt.year 12 = 1 := by omega
      rw [he1]
      omega
    · rw [if_neg h12]
      have hstep := rd_month_step dt.year dt.month h1 (by omega)
      have hb := rd_day dt.year dt.month dt.day
      have he1 : dt.day + 1 - daysInMonth dt.year dt.month = 1 := by omega
      rw [he1]
      omega

theorem nextDay_valid (dt : CivilDate) (h : dt.valid) : (nextDay dt).valid := by
  obtain ⟨h1, h2, h3, h4⟩ := h
  unfold nextDay
  by_cases hov : dt.day + 1 ≤ daysInMonth dt.year dt.month
  · rw [mkDate_nat_fit dt.year dt.month (dt.day + 1) h1 h2 hov]
    refine ⟨?_, ?_, ?_, ?_⟩ <;> dsimp only <;> omega
  · rw [mkDate_nat_overflow dt.year dt.month (dt.day + 1) h1 h2 (by omega)]
    by_cases h12 : dt.month = 12
    · rw [if_pos h12]
      refine ⟨?_, ?_, ?_, ?_⟩ <;> dsimp only
      · omega
      · omega
      · omega
      · have := le_daysInMonth (dt.year + 1) 1
        omega
    · rw [if_neg h12]
      refine ⟨?_, ?_, ?_, ?_⟩ <;> dsimp only
      · omega
      · omega
      · omega
      · have := le_daysInMonth dt.year (dt.month + 1)
        omega

/-- Day-of-month of the successor: 1 at a month boundary, else `day + 1`. -/
theorem nextDay_day (dt : CivilDate) (h : dt.valid) :
    (nextDay dt).day = if dt.day + 1 ≤ daysInMonth dt.year dt.month then dt.day + 1 else 1 := by
  obtain ⟨h1, h2, h3, h4⟩ := h
  unfold nextDay
  by_cases hov : dt.day + 1 ≤ daysInMonth dt.year dt.month
  · rw [mkDate_nat_fit dt.year dt.month (dt.day + 1) h1 h2 hov, if_pos hov]
  · rw [mkDate_nat_overflow dt.year dt.month (dt.day + 1) h1 h2 (by omega), if_neg hov]
    split <;> dsimp only <;> omega

theorem walk_valid (dt : CivilDate) (h : dt.valid) (k : Nat) :
    (nextDay^[k] dt).valid := by
  induction k with
  | zero => exact h
  | succ n ih =>
    rw [Function.iterate_succ_apply']
    exact nextDay_valid _ ih

theorem rd_walk (dt : CivilDate) (h : dt.valid) (k : Nat) :
    toRataDie (nextDay^[k] dt) = toRataDie dt + k := by
  induction k with
  | zero => simp
  | succ n ih =>
    rw [Function.iterate_succ_apply', rd_nextDay _ (walk_valid dt h n)]
    push_cast
    omega

-- ### Digits and numeric strings

/-- The decimal digit character for `d ≤ 9` (and `'9'` beyond). -/
def digitChar (d : Nat) : Char :=
  match d with
  | 0 => '0' | 1 => '1' | 2 => '2' | 3 => '3' | 4 => '4'
  | 5 => '5' | 6 => '6' | 7 => '7' | 8 => '8' | _ => '9'

def isDigitCh (c : Char) : Bool := 48 ≤ c.toNat && c.toNat ≤ 57

/-- Numeric value of a digit character. -/
def charVal (c : Char) : Nat := c.toNat - 48

/-- Value of a big-endian digit string. -/
def valChars (cs : List Char) : Nat :=
  cs.foldl (fun acc c => 10 * acc + charVal c) 0

/-- Decimal digits of `n`, most significant first; `fuel ≥ n` suffices. -/
def natCharsAux : Nat → Nat → List Char
  | 0, _ => []
  | fuel + 1, n => if n = 0 then [] else natCharsAux fuel (n / 10) ++ [digitChar (n % 10)]

/-- Decimal representation of a natural number. -/
def natChars (n : Nat) : List Char :=
  if n = 0 then ['0'] else natCharsAux n n

/-- Two-digit zero-padded representation (for `n ≤ 99`). -/
def pad2 (n : Nat) : List Char := [digitChar (n / 10), digitChar (n % 10)]

theorem digitChar_isDigit (d : Nat) (h : d ≤ 9) : isDigitCh (digitChar d) = true := by
  interval_cases d <;> decide

theorem charVal_digitChar (d : Nat) (h : d ≤ 9) : charVal (digitChar d) = d := by
  interval_cases d <;> decide

theorem digitChar_ne_dot (d : Nat) : digitChar d ≠ '.' := by
  unfold digitChar
  split <;> decide

theorem valChars_append_digit (a : List Char) (c : Char) :
    valChars (a ++ [c]) = 10 * valChars a + charVal c := by
  unfold valChars
  rw [List.foldl_append]
  rfl

theorem natCharsAux_val (fuel : Nat) :
    ∀ n, n ≤ fuel → valChars (natCharsAux fuel n) = n := by
  induction fuel with
  | zero =>
    intro n h
    have : n = 0 := by omega
    subst this
    rfl
  | succ f ih =>
    intro n h
    unfold natCharsAux
    by_cases h0 : n = 0
    · subst h0; rfl
    · rw [if_neg h0, valChars_append_digit, ih (n / 10) (by omega),
        charVal_digitChar (n % 10) (by omega)]
      omega

theorem natCharsAux_digits (fuel : Nat) :
    ∀ n c, c ∈ natCharsAux fuel n → isDigitCh c = true := by
  induction fuel with
  | zero => intro n c hc; simp [natCharsAux] at hc
  | succ f ih =>
    intro n c hc
    unfold natCharsAux at hc
    by_cases h0 : n = 0
    · rw [if_pos h0] at hc; simp at hc
    · rw [if_neg h0, List.mem_append] at hc
      rcases hc with hc | hc
      · exact ih _ _ hc
      · simp at hc
        rw [hc]
        exact digitChar_isDigit _ (by omega)

theorem natChars_val (n : Nat) : valChars (natChars n) = n := by
  unfold natChars
  by_cases h0 : n = 0
  · rw [if_pos h0, h0]; rfl
  · rw [if_neg h0]; exact natCharsAux_val n n (le_refl n)

theorem natChars_digits (n : Nat) : ∀ c ∈ natChars n, isDigitCh c = true := by
  intro c hc
  unfold natChars at hc
  by_cases h0 : n = 0
  · rw [if_pos h0] at hc; simp at hc; rw [hc]; decide
  · rw [if_neg h0] at hc; exact natCharsAux_digits n n c hc

theorem natChars_ne_nil (n : Nat) : natChars n ≠ [] := by
  unfold natChars
  by_cases h0 : n = 0
  · rw [if_pos h0]; simp
  · rw [if_neg h0]
    cases n with
    | zero => omega
    | succ m =>
      simp only [natCharsAux]
      rw [if_neg h0]
      simp

theorem pad2_digits (n : Nat) (h : n ≤ 99) : ∀ c ∈ pad2 n, isDigitCh c = true := by
  intro c hc
  unfold pad2 at hc
  simp at hc
  rcases hc with hc | hc <;> rw [hc] <;> exact digitChar_isDigit _ (by omega)

theorem pad2_val (n : Nat) (h : n ≤ 99) : valChars (pad2 n) = n := by
  unfold pad2 valChars
  simp only [List.foldl]
  rw [charVal_digitChar (n / 10) (by omega), charVal_digitChar (n % 10) (by omega)]
  omega

theorem isDigit_ne_signs (c : Char) (h : isDigitCh c = true) :
    c ≠ '-' ∧ c ≠ '+' ∧ c ≠ '.' := by
  refine ⟨?_, ?_, ?_⟩ <;> rintro rfl <;> exact absurd h (by decide)

-- ### Model of strconv.ParseFloat (plain decimal fragment) and
-- strconv.FormatFloat(x, 'f', 2, 64)

/-- Split a character list at its first `'.'`. -/
def splitDot : List Char → List Char × Option (List Char)
  | [] => ([], none)
  | c :: cs =>
    if c = '.' then ([], some cs)
    else
      let r := splitDot cs
      (c :: r.1, r.2)

theorem splitDot_no_dot (cs : List Char) (h : ∀ c ∈ cs, c ≠ '.') :
    splitDot cs = (cs, none) := by
  induction cs with
  | nil => rfl
  | cons c t ih =>
    unfold splitDot
    rw [if_neg (h c (by simp))]
    rw [ih (fun x hx => h x (by simp [hx]))]

theorem splitDot_append (a b : List Char) (h : ∀ c ∈ a, c ≠ '.') :
    splitDot (a ++ '.' :: b) = (a, some b) := by
  induction a with
  | nil => simp [splitDot]
  | cons c t ih =>
    unfold splitDot
    simp only [List.cons_append]
    rw [if_neg (h c (by simp))]
    rw [ih (fun x hx => h x (by simp [hx]))]

/-- Digit run (with an optional single fractional part) evaluated as a
rational; shared by the signed and unsigned entries of the parser. -/
def parseAmountBody (neg : Bool) (body : List Char) : Option ℚ :=
  let p := splitDot body
  match p.2 with
  | none =>
    if p.1 ≠ [] ∧ p.1.all isDigitCh then
      some (if neg then -(valChars p.1 : ℚ) else (valChars p.1 : ℚ))
    else none
  | some fp =>
    if (p.1 ≠ [] ∨ fp ≠ []) ∧ p.1.all isDigitCh ∧ fp.all isDigitCh then
      some
        (if neg then
          -((valChars p.1 : ℚ) + (valChars fp : ℚ) / (10 : ℚ) ^ fp.length)
        else (valChars p.1 : ℚ) + (valChars fp : ℚ) / (10 : ℚ) ^ fp.length)
    else none

/-- Model of `strconv.ParseFloat(s, 64)` on its plain decimal fragment:
optional sign, decimal digits, optional single `'.'` with fractional
digits, at least one digit in total.  (Exponent/hex/Inf/NaN forms are
outside what this program produces or its spec discusses.) -/
def parseAmountChars (cs : List Char) : Option ℚ :=
  match cs with
  | [] => none
  | c :: rest =>
    if c = '-' then parseAmountBody true rest
    else if c = '+' then parseAmountBody false rest
    else parseAmountBody false (c :: rest)

def parseFloat (s : String) : Option ℚ := parseAmountChars s.data

/-- Characters of `FormatFloat(x, 'f', 2, 64)` for the value `n/100`:
optional sign, integer part, `'.'`, exactly two fractional digits. -/
def formatCentsChars (n : Int) : List Char :=
  (if n < 0 then ['-'] else []) ++ (natChars (n.natAbs / 100) ++ '.' :: pad2 (n.natAbs % 100))

/-- Model of `strconv.FormatFloat(q, 'f', 2, 64)`: round to cents, then
print with exactly two decimals.  (On the exactly-representable amounts
all claims quantify over, no rounding occurs.) -/
def formatAmount (q : ℚ) : String := ⟨formatCentsChars (round (q * 100))⟩

theorem parseAmountBody_frac (neg : Bool) (ip fp : List Char) (hip : ip ≠ [])
    (hipd : ∀ c ∈ ip, isDigitCh c = true) (hfpd : ∀ c ∈ fp, isDigitCh c = true) :
    parseAmountBody neg (ip ++ '.' :: fp)
      = some (if neg then
          -((valChars ip : ℚ) + (valChars fp : ℚ) / (10 : ℚ) ^ fp.length)
        else (valChars ip : ℚ) + (valChars fp : ℚ) / (10 : ℚ) ^ fp.length) := by
  have hsplit : splitDot (ip ++ '.' :: fp) = (ip, some fp) :=
    splitDot_append _ _ (fun x hx => (isDigit_ne_signs x (hipd x hx)).2.2)
  have hall1 : ip.all isDigitCh = true := by
    rw [List.all_eq_true]; exact fun x hx => hipd x hx
  have hall2 : fp.all isDigitCh = true := by
    rw [List.all_eq_true]; exact fun x hx => hfpd x hx
  simp only [parseAmountBody, hsplit]
  rw [if_pos ⟨Or.inl hip, hall1, hall2⟩]

theorem parseAmount_core (ip fp : List Char) (hip : ip ≠ [])
    (hipd : ∀ c ∈ ip, isDigitCh c = true) (hfpd : ∀ c ∈ fp, isDigitCh c = true) :
    parseAmountChars (ip ++ '.' :: fp)
      = some ((valChars ip : ℚ) + (valChars fp : ℚ) / (10 : ℚ) ^ fp.length) := by
  obtain ⟨c, ip', rfl⟩ : ∃ c t, ip = c :: t := by
    cases ip with
    | nil => exact absurd rfl hip
    | cons c t => exact ⟨c, t, rfl⟩
  have hcd := hipd c (by simp)
  obtain ⟨hne1, hne2, hne3⟩ := isDigit_ne_signs c hcd
  simp only [List.cons_append, parseAmountChars]
  rw [if_neg hne1, if_neg hne2]
  have hbody := parseAmountBody_frac false (c :: ip') fp (by simp) hipd hfpd
  simp only [List.cons_append] at hbody
  simpa using hbody

theorem parseAmount_neg_core (ip fp : List Char) (hip : ip ≠ [])
    (hipd : ∀ c ∈ ip, isDigitCh c = true) (hfpd : ∀ c ∈ fp, isDigitCh c = true) :
    parseAmountChars ('-' :: (ip ++ '.' :: fp))
      = some (-((valChars ip : ℚ) + (valChars fp : ℚ) / (10 : ℚ) ^ fp.length)) := by
  have hstep : parseAmountChars ('-' :: (ip ++ '.' :: fp))
      = parseAmountBody true (ip ++ '.' :: fp) := by
    simp [parseAmountChars]
  rw [hstep]
  have hbody := parseAmountBody_frac true ip fp hip hipd hfpd
  simpa using hbody

theorem parse_formatCents (n : Int) :
    parseAmountChars (formatCentsChars n) = some ((n : ℚ) / 100) := by
  have hq : valChars (natChars (n.natAbs / 100)) = n.natAbs / 100 := natChars_val _
  have hr : valChars (pad2 (n.natAbs % 100)) = n.natAbs % 100 := pad2_val _ (by omega)
  have hlen : (pad2 (n.natAbs % 100)).length = 2 := rfl
  have hmod : 100 * (n.natAbs / 100) + n.natAbs % 100 = n.natAbs := by omega
  have hmodQ : (100 : ℚ) * ((n.natAbs / 100 : ℕ) : ℚ) + ((n.natAbs % 100 : ℕ) : ℚ)
      = ((n.natAbs : ℕ) : ℚ) := by exact_mod_cast hmod
  have hpow : ((10 : ℚ)) ^ (2 : ℕ) = 100 := by norm_num
  by_cases hneg : n < 0
  · have h1 : (n.natAbs : ℤ) = -n := by omega
    have hnQ : ((n.natAbs : ℕ) : ℚ) = -(n : ℚ) := by
      have e : ((n.natAbs : ℤ) : ℚ) = ((n.natAbs : ℕ) : ℚ) := Int.cast_natCast _
      rw [← e, h1]
      push_cast
      ring
    unfold formatCentsChars
    rw [if_pos hneg]
    simp only [List.singleton_append]
    rw [parseAmount_neg_core (natChars (n.natAbs / 100)) (pad2 (n.natAbs % 100))
      (natChars_ne_nil _) (natChars_digits _) (pad2_digits (n.natAbs % 100) (by omega))]
    congr 1
    rw [hq, hr, hlen, hpow]
    field_simp
    linarith [hmodQ, hnQ]
  · have h1 : (n.natAbs : ℤ) = n := by omega
    have hnQ : ((n.natAbs : ℕ) : ℚ) = (n : ℚ) := by
      have e : ((n.natAbs : ℤ) : ℚ) = ((n.natAbs : ℕ) : ℚ) := Int.cast_natCast _
      rw [← e, h1]
    unfold formatCentsChars
    rw [if_neg hneg]
    simp only [List.nil_append]
    rw [parseAmount_core (natChars (n.natAbs / 100)) (pad2 (n.natAbs % 100))
      (natChars_ne_nil _) (natChars_digits _) (pad2_digits (n.natAbs % 100) (by omega))]
    congr 1
    rw [hq, hr, hlen, hpow]
    field_simp
    linarith [hmodQ, hnQ]

/-- An amount is exactly representable in cents. -/
def repr2dec (q : ℚ) : Prop := ∃ n : ℤ, q * 100 = (n : ℚ)

theorem parseFloat_formatAmount (q : ℚ) (h : repr2dec q) :
    parseFloat (formatAmount q) = some q := by
  obtain ⟨n, hn⟩ := h
  unfold parseFloat formatAmount
  rw [hn, round_intCast]
  show parseAmountChars (formatCentsChars n) = some q
  rw [parse_formatCents]
  congr 1
  have hq : (n : ℚ) = q * 100 := hn.symm
  rw [hq]
  ring

-- ### Date strings

/-- Model of Go `time.Parse("2006-01-02", s)` (and `ParseInLocation`):
exactly ten characters `YYYY-MM-DD` (zero-padded, fixed width), month
1..12, day within the month's leap-aware length. -/
def parseDateChars : List Char → Option CivilDate
  | [y1, y2, y3, y4, s1, mo1, mo2, s2, d1, d2] =>
    if s1 = '-' ∧ s2 = '-' ∧ ([y1, y2, y3, y4, mo1, mo2, d1, d2]).all isDigitCh then
      let y := valChars [y1, y2, y3, y4]
      let mo := valChars [mo1, mo2]
      let dy := valChars [d1, d2]
      if 1 ≤ mo ∧ mo ≤ 12 ∧ 1 ≤ dy ∧ dy ≤ daysInMonth (y : Int) mo then
        some ⟨(y : Int), mo, dy⟩
      else none
    else none
  | _ => none

def parseDate (s : String) : Option CivilDate := parseDateChars s.data

/-- Four-digit zero-padded year (years 0..9999; Go prints a sign for
negative years). -/
def pad4 (y : Int) : List Char :=
  if y < 0 then '-' :: natChars y.natAbs
  else List.replicate (4 - (natChars y.toNat).length) '0' ++ natChars y.toNat

/-- Model of Go `t.Format("2006-01-02")`. -/
def formatDateChars (dt : CivilDate) : List Char :=
  pad4 dt.year ++ ('-' :: pad2 dt.month) ++ ('-' :: pad2 dt.day)

def formatDate (dt : CivilDate) : String := ⟨formatDateChars dt⟩

-- ### The tabular store (internal/data/csv.go)

/-- `data.Transaction` (csv.go lines 12-17). -/
structure Transaction where
  Date : String
  Category : String
  Description : String
  Amount : ℚ
deriving DecidableEq, Repr

/-- The canonical header record (csv.go line 65 / 112). -/
def expectedHeader : List String := ["Date", "Category", "Description", "Amount"]

/-- `compareStringSlices` (csv.go lines 151-161). -/
def compareStringSlices (a b : List String) : Bool := a == b

/-- `csv.Reader.ReadAll` with the default `FieldsPerRecord = 0`
succeeds iff every later record has as many fields as the first. -/
def readAllFieldsConsistent (records : List (List String)) : Bool :=
  match records with
  | [] => true
  | r0 :: rest => rest.all (fun r => r.length == r0.length)

/-- Row scan of `load()` (csv.go lines 70-85): the first row with a
wrong field count or an unparseable amount aborts the whole load. -/
def loadRows : List (List String) → Except String (List Transaction)
  | [] => Except.ok []
  | r :: rest =>
    match r with
    | [dt, cat, desc, amt] =>
      match parseFloat amt with
      | none => Except.error "invalid amount"
      | some a =>
        match loadRows rest with
        | Except.error e => Except.error e
        | Except.ok txs => Except.ok (⟨dt, cat, desc, a⟩ :: txs)
    | _ => Except.error "invalid record length"

/-- `load()` (csv.go lines 35-88) on a present backing file: `ReadAll`
(with its field-count consistency), the empty-file shortcut, the exact
header comparison, then the row scan. -/
def loadRecords (records : List (List String)) : Except String (List Transaction) :=
  if readAllFieldsConsistent records = false then
    Except.error "csv read error"
  else
    match records with
    | [] => Except.ok []
    | header :: rows =>
      if compareStringSlices header expectedHeader = false then
        Except.error "CSV header does not match expected format"
      else loadRows rows

/-- `load()` including the absent-file branch (csv.go lines 39-49):
`none` models `os.IsNotExist`.  `New` (lines 25-33) returns the error
of `load()` unchanged, so this is also the store constructor. -/
def load (file : Option (List (List String))) : Except String (List Transaction) :=
  match file with
  | none => Except.ok []
  | some records => loadRecords records

/-- What the absent-file branch writes: `os.Create` + `Close` produce a
zero-byte file (csv.go lines 43-47) — no header row is written. -/
def createdBackingFileContent : String := ""

/-- The canonical header line of the backing format (§6 of the spec). -/
def csvHeaderLine : String := "Date,Category,Description,Amount\n"

/-- `save()` (csv.go lines 98-127): full rewrite — the header record
plus one record per transaction in order, the amount rendered by
`strconv.FormatFloat(tx.Amount, 'f', 2, 64)`. -/
def saveRecords (txs : List Transaction) : List (List String) :=
  expectedHeader ::
    txs.map (fun tx => [tx.Date, tx.Category, tx.Description, formatAmount tx.Amount])

/-- In-memory table plus the records of the backing file. -/
structure DataStore where
  Transactions : List Transaction
  disk : List (List String)
deriving DecidableEq, Repr

/-- `AddTransaction` (csv.go lines 90-96): append to the in-memory
table under the lock, then `save()` rewrites the whole backing file.
`writeOk` models whether the rewrite's file I/O succeeds; on failure
the error is returned but the in-memory append is not rolled back. -/
def AddTransaction (writeOk : Bool) (d : DataStore) (tx : Transaction) :
    Except String Unit × DataStore :=
  let mem := d.Transactions ++ [tx]
  if writeOk then (Except.ok (), ⟨mem, saveRecords mem⟩)
  else (Except.error "persist", ⟨mem, d.disk⟩)

/-- `GetTransactionsByDate` (csv.go lines 129-140): exact string match
on the date field, in insertion order. -/
def GetTransactionsByDate (txs : List Transaction) (date : String) : List Transaction :=
  txs.filter (fun tx => tx.Date == date)

-- ### Cycle calculator (internal/bot/bot.go)

/-- The `SALARY_DAY` resolution inside `getCycleStartAndNext` (bot.go
lines 422-427): integers 1..28 are accepted, anything else falls back
to 15. -/
def resolveSalaryDay (env : Option Int) : Nat :=
  match env with
  | some v => if 1 ≤ v ∧ v ≤ 28 then v.toNat else 15
  | none => 15

/-- `getCycleStartAndNext` (bot.go lines 421-441), salary day already
resolved: start of the current salary cycle and the next cycle start. -/
def getCycleStartAndNext (salaryDay : Nat) (selectedDate : CivilDate) :
    CivilDate × CivilDate :=
  let cycleStart :=
    if selectedDate.day ≥ salaryDay then
      mkDate selectedDate.year (selectedDate.month : Int) salaryDay
    else
      let prev := addDateMonths selectedDate (-1)
      mkDate prev.year (prev.month : Int) salaryDay
  (cycleStart, addDateMonths cycleStart 1)

/-- The values computed by the cycle/saldo block shared by
`handleSaldo` (bot.go 351-388) and `handleDailyReport` (bot.go
165-206). -/
structure SaldoStats where
  daysInCycle : Int
  dayIndex : Int
  spentThroughToday : ℚ
  allowedCumulative : ℚ
  saldoToday : ℚ
  remainingDaysAfterToday : Int
  tomorrowAllowance : ℚ
deriving DecidableEq, Repr

/-- Cycle statistics of `handleSaldo` (bot.go lines 351-376). -/
def handleSaldoStats (txs : List Transaction) (selectedDate : CivilDate)
    (salaryDay : Nat) (monthlyBudget : ℚ) : SaldoStats :=
  let cycle := getCycleStartAndNext salaryDay selectedDate
  let cycleStart := cycle.1
  let nextCycleStart := cycle.2
  let daysInCycle0 := toRataDie nextCycleStart - toRataDie cycleStart
  let daysInCycle := if daysInCycle0 ≤ 0 then 1 else daysInCycle0
  let dayIndex0 := toRataDie selectedDate - toRataDie cycleStart + 1
  let dayIndex := if dayIndex0 < 1 then 1 else dayIndex0
  let spentThroughToday :=
    txs.foldl (fun acc tx =>
      match parseDate tx.Date with
      | none => acc
      | some d =>
        if toRataDie cycleStart ≤ toRataDie d ∧ toRataDie d ≤ toRataDie selectedDate then
          acc + tx.Amount
        else acc) 0
  let allowedCumulative := monthlyBudget * ((dayIndex : ℚ) / (daysInCycle : ℚ))
  let saldoToday := allowedCumulative - spentThroughToday
  let remainingDaysAfterToday := toRataDie nextCycleStart - toRataDie selectedDate - 1
  let tomorrowAllowance :=
    if 0 < remainingDaysAfterToday then
      (if monthlyBudget - spentThroughToday < 0 then 0 else monthlyBudget - spentThroughToday)
        / (remainingDaysAfterToday : ℚ)
    else 0
  ⟨daysInCycle, dayIndex, spentThroughToday, allowedCumulative, saldoToday,
    remainingDaysAfterToday, tomorrowAllowance⟩

/-- Cycle statistics of `handleDailyReport` (bot.go lines 165-193),
textually the same computation as in `handleSaldo`. -/
def handleDailyReportStats (txs : List Transaction) (selectedDate : CivilDate)
    (salaryDay : Nat) (monthlyBudget : ℚ) : SaldoStats :=
  let cycle := getCycleStartAndNext salaryDay selectedDate
  let cycleStart := cycle.1
  let nextCycleStart := cycle.2
  let daysInCycle0 := toRataDie nextCycleStart - toRataDie cycleStart
  let daysInCycle := if daysInCycle0 ≤ 0 then 1 else daysInCycle0
  let dayIndex0 := toRataDie selectedDate - toRataDie cycleStart + 1
  let dayIndex := if dayIndex0 < 1 then 1 else dayIndex0
  let spentThroughToday :=
    txs.foldl (fun acc tx =>
      match parseDate tx.Date with
      | none => acc
      | some d =>
        if toRataDie cycleStart ≤ toRataDie d ∧ toRataDie d ≤ toRataDie selectedDate then
          acc + tx.Amount
        else acc) 0
  let allowedCumulative := monthlyBudget * ((dayIndex : ℚ) / (daysInCycle : ℚ))
  let saldoToday := allowedCumulative - spentThroughToday
  let remainingDaysAfterToday := toRataDie nextCycleStart - toRataDie selectedDate - 1
  let tomorrowAllowance :=
    if 0 < remainingDaysAfterToday then
      (if monthlyBudget - spentThroughToday < 0 then 0 else monthlyBudget - spentThroughToday)
        / (remainingDaysAfterToday : ℚ)
    else 0
  ⟨daysInCycle, dayIndex, spentThroughToday, allowedCumulative, saldoToday,
    remainingDaysAfterToday, tomorrowAllowance⟩

-- ### addDateMonths on the cycle calculator's inputs

theorem addDateMonths_neg_one (dt : CivilDate) (h : dt.valid) (hd : dt.day ≤ 28) :
    addDateMonths dt (-1) =
      if dt.month = 1 then ⟨dt.year - 1, 12, dt.day⟩
      else ⟨dt.year, dt.month - 1, dt.day⟩ := by
  obtain ⟨h1, h2, h3, h4⟩ := h
  unfold addDateMonths
  by_cases hm1 : dt.month = 1
  · rw [if_pos hm1, hm1]
    have e0 : ((1 : ℕ) : Int) + (-1) = 0 := by norm_num
    rw [e0]
    have hy' : dt.year + ((0 : Int) - 1) / 12 = dt.year - 1 := by omega
    have hm' : ((((0 : Int) - 1) % 12 + 1)).toNat = 12 := by omega
    simp only [mkDate, hy', hm']
    rw [if_neg (by have := le_daysInMonth (dt.year - 1) 12; omega)]
  · rw [if_neg hm1]
    have em : (dt.month : Int) + (-1) = ((dt.month - 1 : ℕ) : Int) := by omega
    rw [em, mkDate_nat_fit dt.year (dt.month - 1) dt.day (by omega) (by omega)
      (le_trans hd (le_daysInMonth _ _))]

theorem addDateMonths_one (dt : CivilDate) (h : dt.valid) (hd : dt.day ≤ 28) :
    addDateMonths dt 1 =
      if dt.month = 12 then ⟨dt.year + 1, 1, dt.day⟩
      else ⟨dt.year, dt.month + 1, dt.day⟩ := by
  obtain ⟨h1, h2, h3, h4⟩ := h
  unfold addDateMonths
  by_cases hm12 : dt.month = 12
  · rw [if_pos hm12, hm12]
    have e0 : ((12 : ℕ) : Int) + 1 = 13 := by norm_num
    rw [e0]
    have hy' : dt.year + ((13 : Int) - 1) / 12 = dt.year + 1 := by omega
    have hm' : ((((13 : Int) - 1) % 12 + 1)).toNat = 1 := by omega
    simp only [mkDate, hy', hm']
    rw [if_neg (by have := le_daysInMonth (dt.year + 1) 1; omega)]
  · rw [if_neg hm12]
    have em : (dt.month : Int) + 1 = ((dt.month + 1 : ℕ) : Int) := by omega
    rw [em, mkDate_nat_fit dt.year (dt.month + 1) dt.day (by omega) (by omega)
      (le_trans hd (le_daysInMonth _ _))]

theorem getCycleStart_eq (ref : CivilDate) (cycleDay : Nat)
    (href : ref.valid) (h1 : 1 ≤ cycleDay) (h2 : cycleDay ≤ 28) :
    (getCycleStartAndNext cycleDay ref).1 =
      if cycleDay ≤ ref.day then ⟨ref.year, ref.month, cycleDay⟩
      else if ref.month = 1 then ⟨ref.year - 1, 12, cycleDay⟩
      else ⟨ref.year, ref.month - 1, cycleDay⟩ := by
  obtain ⟨hm1, hm2, hd1, hd2⟩ := href
  simp only [getCycleStartAndNext]
  by_cases hge : cycleDay ≤ ref.day
  · rw [if_pos (show ref.day ≥ cycleDay from hge), if_pos hge]
    exact mkDate_nat_fit ref.year ref.month cycleDay hm1 hm2
      (le_trans h2 (le_daysInMonth _ _))
  · rw [if_neg (show ¬ ref.day ≥ cycleDay from hge), if_neg hge]
    rw [addDateMonths_neg_one ref ⟨hm1, hm2, hd1, hd2⟩ (by omega)]
    by_cases hm : ref.month = 1
    · rw [if_pos hm, if_pos hm]
      exact mkDate_nat_fit (ref.year - 1) 12 cycleDay (by omega) (by omega)
        (le_trans h2 (le_daysInMonth _ _))
    · rw [if_neg hm, if_neg hm]
      exact mkDate_nat_fit ref.year (ref.month - 1) cycleDay (by omega) (by omega)
        (le_trans h2 (le_daysInMonth _ _))

theorem getCycleStart_valid (ref : CivilDate) (cycleDay : Nat)
    (href : ref.valid) (h1 : 1 ≤ cycleDay) (h2 : cycleDay ≤ 28) :
    (getCycleStartAndNext cycleDay ref).1.valid
      ∧ (getCycleStartAndNext cycleDay ref).1.day = cycleDay := by
  obtain ⟨hm1, hm2, hd1, hd2⟩ := href
  rw [getCycleStart_eq ref cycleDay ⟨hm1, hm2, hd1, hd2⟩ h1 h2]
  split_ifs with ha hb <;>
    refine ⟨⟨?_, ?_, ?_, ?_⟩, rfl⟩ <;> dsimp only <;>
      first
        | omega
        | exact le_trans h2 (le_daysInMonth _ _)

theorem getCycleNext_eq (ref : CivilDate) (cycleDay : Nat) :
    (getCycleStartAndNext cycleDay ref).2 =
      addDateMonths (getCycleStartAndNext cycleDay ref).1 1 := rfl

/-- C1: for a valid reference date and cycleDay in 1..28, the cycle
start is `cycleDay` of the reference month when `ref.day ≥ cycleDay`
and `cycleDay` of the previous calendar month otherwise, and the cycle
end is exactly one calendar month after the cycle start; for
cycleDay = 15 and reference 2025-08-09 this gives 2025-07-15 /
2025-08-15 with daysInCycle = 31 and dayIndex = 26. -/
theorem C1_cycleBounds (ref : CivilDate) (cycleDay : Nat)
    (href : ref.valid) (h1 : 1 ≤ cycleDay) (h2 : cycleDay ≤ 28) :
    ((getCycleStartAndNext cycleDay ref).1 =
      (if cycleDay ≤ ref.day then (⟨ref.year, ref.month, cycleDay⟩ : CivilDate)
       else if ref.month = 1 then ⟨ref.year - 1, 12, cycleDay⟩
       else ⟨ref.year, ref.month - 1, cycleDay⟩))
    ∧ ((getCycleStartAndNext cycleDay ref).2 =
      (if (getCycleStartAndNext cycleDay ref).1.month = 12 then
        (⟨(getCycleStartAndNext cycleDay ref).1.year + 1, 1, cycleDay⟩ : CivilDate)
       else ⟨(getCycleStartAndNext cycleDay ref).1.year,
         (getCycleStartAndNext cycleDay ref).1.month + 1, cycleDay⟩))
    ∧ getCycleStartAndNext 15 ⟨2025, 8, 9⟩ = (⟨2025, 7, 15⟩, ⟨2025, 8, 15⟩)
    ∧ (handleSaldoStats [] ⟨2025, 8, 9⟩ 15 12000).daysInCycle = 31
    ∧ (handleSaldoStats [] ⟨2025, 8, 9⟩ 15 12000).dayIndex = 26 := by
  obtain ⟨hval, hday⟩ := getCycleStart_valid ref cycleDay href h1 h2
  refine ⟨getCycleStart_eq ref cycleDay href h1 h2, ?_, by decide, by decide, by decide⟩
  rw [getCycleNext_eq, addDateMonths_one _ hval (by omega), hday]

/-- Witness for C1 at cycleDay 15, reference 2025-08-09. -/
theorem C1_cycleBounds_witness :
    (getCycleStartAndNext 15 ⟨2025, 8, 9⟩).1 =
      (if 15 ≤ (9:Nat) then (⟨2025, 8, 15⟩ : CivilDate)
       else if (8:Nat) = 1 then ⟨2024, 12, 15⟩ else ⟨2025, 7, 15⟩) :=
  (C1_cycleBounds ⟨2025, 8, 9⟩ 15 (by decide) (by decide) (by decide)).1

theorem spent_foldl (cs ref : CivilDate) (txs : List Transaction) (acc : ℚ) :
    txs.foldl (fun acc tx =>
      match parseDate tx.Date with
      | none => acc
      | some d =>
        if toRataDie cs ≤ toRataDie d ∧ toRataDie d ≤ toRataDie ref then
          acc + tx.Amount
        else acc) acc
    = acc + ((txs.filter (fun tx =>
        match parseDate tx.Date with
        | none => false
        | some d =>
          decide (toRataDie cs ≤ toRataDie d ∧ toRataDie d ≤ toRataDie ref))).map
          Transaction.Amount).sum := by
  induction txs generalizing acc with
  | nil => simp
  | cons tx rest ih =>
    simp only [List.foldl_cons, List.filter_cons]
    cases hp : parseDate tx.Date with
    | none =>
      simp only [hp]
      rw [ih, if_neg (by decide)]
    | some d =>
      by_cases hc : toRataDie cs ≤ toRataDie d ∧ toRataDie d ≤ toRataDie ref
      · simp only [hp, if_pos hc, decide_eq_true hc]
        rw [ih]
        simp only [if_true, List.map_cons, List.sum_cons]
        ring
      · simp only [hp, if_neg hc, decide_eq_false hc]
        rw [ih]
        simp

theorem valid_mk (y : Int) (m d : Nat) (h1 : 1 ≤ m) (h2 : m ≤ 12)
    (h3 : 1 ≤ d) (h4 : d ≤ daysInMonth y m) : (⟨y, m, d⟩ : CivilDate).valid :=
  ⟨h1, h2, h3, h4⟩

theorem rd_addMonth_pos (dt : CivilDate) (h : dt.valid) (hd : dt.day ≤ 28) :
    toRataDie dt < toRataDie (addDateMonths dt 1) := by
  obtain ⟨h1, h2, h3, h4⟩ := h
  rw [addDateMonths_one dt ⟨h1, h2, h3, h4⟩ hd]
  split_ifs with h12
  · exact rd_strict_mono dt _ ⟨h1, h2, h3, h4⟩
      (valid_mk _ _ _ (by omega) (by omega) (by omega) (le_trans hd (le_daysInMonth _ _)))
      (Or.inl (by dsimp only; omega))
  · exact rd_strict_mono dt _ ⟨h1, h2, h3, h4⟩
      (valid_mk _ _ _ (by omega) (by omega) (by omega) (le_trans hd (le_daysInMonth _ _)))
      (Or.inr ⟨rfl, Or.inl (by dsimp only; omega)⟩)

theorem rd_cycleStart_le (ref : CivilDate) (cycleDay : Nat)
    (href : ref.valid) (h1 : 1 ≤ cycleDay) (h2 : cycleDay ≤ 28) :
    toRataDie (getCycleStartAndNext cycleDay ref).1 ≤ toRataDie ref := by
  obtain ⟨hm1, hm2, hd1, hd2⟩ := href
  rw [getCycleStart_eq ref cycleDay ⟨hm1, hm2, hd1, hd2⟩ h1 h2]
  split_ifs with ha hb
  · have e1 := rd_day ref.year ref.month cycleDay
    have e2 := rd_day ref.year ref.month ref.day
    have heta : toRataDie ⟨ref.year, ref.month, ref.day⟩ = toRataDie ref := rfl
    omega
  · exact le_of_lt (rd_strict_mono _ ref
      (valid_mk _ _ _ (by omega) (by omega) (by omega) (le_trans h2 (le_daysInMonth _ _)))
      ⟨hm1, hm2, hd1, hd2⟩ (Or.inl (by dsimp only; omega)))
  · exact le_of_lt (rd_strict_mono _ ref
      (valid_mk _ _ _ (by omega) (by omega) (by omega) (le_trans h2 (le_daysInMonth _ _)))
      ⟨hm1, hm2, hd1, hd2⟩ (Or.inr ⟨rfl, Or.inl (by dsimp only; omega)⟩))

theorem rd_cycle_pos (ref : CivilDate) (cycleDay : Nat)
    (href : ref.valid) (h1 : 1 ≤ cycleDay) (h2 : cycleDay ≤ 28) :
    toRataDie (getCycleStartAndNext cycleDay ref).1
      < toRataDie (getCycleStartAndNext cycleDay ref).2 := by
  obtain ⟨hval, hday⟩ := getCycleStart_valid ref cycleDay href h1 h2
  rw [getCycleNext_eq]
  exact rd_addMonth_pos _ hval (by omega)

/-- C2: the saldo computation's `allowedCumulative` is
`monthlyBudget * dayIndex / daysInCycle`, `saldo` is
`allowedCumulative - spentCumulative`, and `spentCumulative` sums
exactly the transactions whose date parses as YYYY-MM-DD and lies in
`[cycleStart, referenceDate]`; unparseable dates contribute nothing
and never fail the (total) computation.  `dayIndex` and `daysInCycle`
are the cycle quantities of C1. -/
theorem C2_saldoComputation (txs : List Transaction) (ref : CivilDate)
    (cycleDay : Nat) (budget : ℚ)
    (href : ref.valid) (h1 : 1 ≤ cycleDay) (h2 : cycleDay ≤ 28) :
    (handleSaldoStats txs ref cycleDay budget).allowedCumulative
        = budget * ((handleSaldoStats txs ref cycleDay budget).dayIndex : ℚ)
          / ((handleSaldoStats txs ref cycleDay budget).daysInCycle : ℚ)
    ∧ (handleSaldoStats txs ref cycleDay budget).saldoToday
        = (handleSaldoStats txs ref cycleDay budget).allowedCumulative
          - (handleSaldoStats txs ref cycleDay budget).spentThroughToday
    ∧ (handleSaldoStats txs ref cycleDay budget).spentThroughToday
        = ((txs.filter (fun tx =>
            match parseDate tx.Date with
            | none => false
            | some d =>
              decide (toRataDie (getCycleStartAndNext cycleDay ref).1 ≤ toRataDie d
                ∧ toRataDie d ≤ toRataDie ref))).map Transaction.Amount).sum
    ∧ (handleSaldoStats txs ref cycleDay budget).dayIndex
        = toRataDie ref - toRataDie (getCycleStartAndNext cycleDay ref).1 + 1
    ∧ (handleSaldoStats txs ref cycleDay budget).daysInCycle
        = toRataDie (getCycleStartAndNext cycleDay ref).2
          - toRataDie (getCycleStartAndNext cycleDay ref).1 := by
  have hle := rd_cycleStart_le ref cycleDay href h1 h2
  have hpos := rd_cycle_pos ref cycleDay href h1 h2
  have hA : (if toRataDie (getCycleStartAndNext cycleDay ref).2
        - toRataDie (getCycleStartAndNext cycleDay ref).1 ≤ 0 then 1
      else toRataDie (getCycleStartAndNext cycleDay ref).2
        - toRataDie (getCycleStartAndNext cycleDay ref).1)
      = toRataDie (getCycleStartAndNext cycleDay ref).2
        - toRataDie (getCycleStartAndNext cycleDay ref).1 := if_neg (by omega)
  have hB : (if toRataDie ref - toRataDie (getCycleStartAndNext cycleDay ref).1 + 1 < 1
        then 1
      else toRataDie ref - toRataDie (getCycleStartAndNext cycleDay ref).1 + 1)
      = toRataDie ref - toRataDie (getCycleStartAndNext cycleDay ref).1 + 1 :=
    if_neg (by omega)
  simp only [handleSaldoStats, hA, hB]
  refine ⟨by ring, by trivial, ?_, by trivial, by trivial⟩
  rw [spent_foldl]
  ring

/-- Witness for C2 on a one-transaction table inside the cycle. -/
theorem C2_saldoComputation_witness :
    (handleSaldoStats [⟨"2025-08-01", "Food", "Lunch", 10⟩] ⟨2025, 8, 9⟩ 15 12000).saldoToday
      = (handleSaldoStats [⟨"2025-08-01", "Food", "Lunch", 10⟩] ⟨2025, 8, 9⟩ 15 12000).allowedCumulative
        - (handleSaldoStats [⟨"2025-08-01", "Food", "Lunch", 10⟩] ⟨2025, 8, 9⟩ 15 12000).spentThroughToday :=
  (C2_saldoComputation [⟨"2025-08-01", "Food", "Lunch", 10⟩] ⟨2025, 8, 9⟩ 15 12000
    (by decide) (by decide) (by decide)).2.1

/-- C3: on both the saldo path and the report path,
`remainingDays = (cycleEnd - referenceDate) in days - 1`, and
`tomorrowAllowance = max(0, monthlyBudget - spentCumulative) / remainingDays`
when `remainingDays > 0`, else 0; the two handlers compute identical
statistics. -/
theorem C3_tomorrowAllowance (txs : List Transaction) (ref : CivilDate)
    (cycleDay : Nat) (budget : ℚ) :
    (handleSaldoStats txs ref cycleDay budget).remainingDaysAfterToday
        = toRataDie (getCycleStartAndNext cycleDay ref).2 - toRataDie ref - 1
    ∧ (handleSaldoStats txs ref cycleDay budget).tomorrowAllowance
        = (if 0 < (handleSaldoStats txs ref cycleDay budget).remainingDaysAfterToday then
            max 0 (budget - (handleSaldoStats txs ref cycleDay budget).spentThroughToday)
              / ((handleSaldoStats txs ref cycleDay budget).remainingDaysAfterToday : ℚ)
          else 0)
    ∧ handleSaldoStats txs ref cycleDay budget
        = handleDailyReportStats txs ref cycleDay budget := by
  refine ⟨rfl, ?_, rfl⟩
  simp only [handleSaldoStats]
  have hmax : ∀ x : ℚ, (if x < 0 then 0 else x) = max 0 x := by
    intro x
    split_ifs with h
    · exact (max_eq_left h.le).symm
    · exact (max_eq_right (not_lt.mp h)).symm
  rw [hmax]

-- ### C4: load failure characterisation

/-- A data row that `load()` rejects: wrong field count, or an amount
that fails numeric parse. -/
def rowRejected (r : List String) : Prop :=
  match r with
  | [_, _, _, amt] => parseFloat amt = none
  | _ => True

/-- The claim's failure condition: a header row differing from
`Date,Category,Description,Amount`, or some data row with a field
count other than 4 or an unparseable amount. -/
def loadFailCondition (records : List (List String)) : Prop :=
  match records with
  | [] => False
  | header :: rows => header ≠ expectedHeader ∨ ∃ r ∈ rows, rowRejected r

def exceptFailed {α : Type} : Except String α → Prop
  | Except.error _ => True
  | Except.ok _ => False

theorem rowRejected_of_length (r : List String) (h : r.length ≠ 4) : rowRejected r := by
  rcases r with _ | ⟨a, _ | ⟨b, _ | ⟨c, _ | ⟨d, _ | ⟨e, t⟩⟩⟩⟩⟩ <;> trivial

theorem loadRows_failed_iff (rows : List (List String)) :
    exceptFailed (loadRows rows) ↔ ∃ r ∈ rows, rowRejected r := by
  induction rows with
  | nil => simp [loadRows, exceptFailed]
  | cons r rest ih =>
    rcases r with _ | ⟨a, _ | ⟨b, _ | ⟨c, _ | ⟨d, _ | ⟨e, t⟩⟩⟩⟩⟩ <;>
      simp only [loadRows, exceptFailed, List.mem_cons] <;>
      try (constructor
           · intro _
             exact ⟨_, Or.inl rfl, by trivial⟩
           · intro _
             trivial)
    cases hp : parseFloat d with
    | none =>
      simp only [exceptFailed]
      constructor
      · intro _
        exact ⟨[a, b, c, d], Or.inl rfl, by simp [rowRejected, hp]⟩
      · intro _
        trivial
    | some v =>
      cases hrest : loadRows rest with
      | error e =>
        simp only [exceptFailed]
        constructor
        · intro _
          obtain ⟨x, hx, hrej⟩ := ih.mp (by rw [hrest]; trivial)
          exact ⟨x, Or.inr hx, hrej⟩
        · intro _
          trivial
      | ok txs =>
        simp only [exceptFailed]
        constructor
        · intro hfalse
          exact absurd hfalse (by simp)
        · rintro ⟨x, hx | hx, hrej⟩
          · rw [hx] at hrej
            simp only [rowRejected, hp] at hrej
            exact absurd hrej (by simp)
          · have := ih.mpr ⟨x, hx, hrej⟩
            rw [hrest] at this
            exact this

theorem loadRecords_failed_iff (records : List (List String)) :
    exceptFailed (loadRecords records) ↔ loadFailCondition records := by
  cases records with
  | nil => simp [loadRecords, loadFailCondition, readAllFieldsConsistent, exceptFailed]
  | cons header rows =>
    show exceptFailed (loadRecords (header :: rows))
      ↔ (header ≠ expectedHeader ∨ ∃ r ∈ rows, rowRejected r)
    unfold loadRecords
    by_cases hcons : readAllFieldsConsistent (header :: rows) = false
    · rw [if_pos hcons]
      refine ⟨fun _ => ?_, fun _ => trivial⟩
      unfold readAllFieldsConsistent at hcons
      rw [List.all_eq_false] at hcons
      obtain ⟨r, hr, hlen⟩ := hcons
      by_cases hh : header = expectedHeader
      · refine Or.inr ⟨r, hr, rowRejected_of_length r ?_⟩
        rw [hh] at hlen
        simpa using hlen
      · exact Or.inl hh
    · rw [if_neg hcons]
      show exceptFailed (if compareStringSlices header expectedHeader = false
          then Except.error "CSV header does not match expected format"
          else loadRows rows) ↔ _
      by_cases hh : compareStringSlices header expectedHeader = false
      · rw [if_pos hh]
        have hne : header ≠ expectedHeader := by
          intro he
          rw [he] at hh
          simp [compareStringSlices] at hh
        exact ⟨fun _ => Or.inl hne, fun _ => trivial⟩
      · rw [if_neg hh]
        have heq : header = expectedHeader := by
          have hx : compareStringSlices header expectedHeader = true := by
            cases hx2 : compareStringSlices header expectedHeader
            · exact absurd hx2 hh
            · rfl
          simpa [compareStringSlices] using hx
        rw [loadRows_failed_iff]
        simp [heq]

/-- C4: `load()` (and hence the store constructor `New`) fails exactly
when the backing file is present and its header row differs from
`Date,Category,Description,Amount`, or some data row has a field count
other than 4, or some amount fails numeric parse; in particular the
header `Date,Category,Description,Invalid` is rejected. -/
theorem C4_loadFailsIff (file : Option (List (List String))) :
    (exceptFailed (load file)
      ↔ ∃ records, file = some records ∧ loadFailCondition records)
    ∧ load (some [["Date", "Category", "Description", "Invalid"]])
        = Except.error "CSV header does not match expected format" := by
  constructor
  · cases file with
    | none => simp [load, exceptFailed]
    | some records =>
      simp only [load, loadRecords_failed_iff]
      constructor
      · intro h
        exact ⟨records, rfl, h⟩
      · rintro ⟨r, hr, hc⟩
        cases hr
        exact hc
  · rfl

/-- C5 (evidence of the divergence): with the backing file absent the
store starts with zero transactions, but the file created by `load()`
(`os.Create` then `Close`) has empty content — the canonical header
row is not written. -/
theorem C5_absentFileCreatesNoHeader :
    load none = Except.ok []
    ∧ createdBackingFileContent = ""
    ∧ createdBackingFileContent ≠ csvHeaderLine := by
  refine ⟨rfl, rfl, ?_⟩
  decide

/-- C6: `AddTransaction` appends to the in-memory table, then fully
rewrites the backing file (header plus every row, amounts in the fixed
2-decimal format) before returning success; if the rewrite fails it
returns an error but the in-memory table still holds the appended row. -/
theorem C6_addTransaction (writeOk : Bool) (d : DataStore) (tx : Transaction) :
    ((AddTransaction writeOk d tx).2.Transactions = d.Transactions ++ [tx])
    ∧ (writeOk = true →
        (AddTransaction writeOk d tx).1 = Except.ok ()
        ∧ (AddTransaction writeOk d tx).2.disk
            = saveRecords (d.Transactions ++ [tx]))
    ∧ (writeOk = false →
        exceptFailed (AddTransaction writeOk d tx).1
        ∧ tx ∈ (AddTransaction writeOk d tx).2.Transactions
        ∧ (AddTransaction writeOk d tx).2.disk = d.disk) := by
  cases writeOk
  · exact ⟨rfl, fun h => by simp at h, fun _ => ⟨trivial, by simp [AddTransaction], rfl⟩⟩
  · exact ⟨rfl, fun _ => ⟨rfl, rfl⟩, fun h => by simp at h⟩

theorem loadRows_save (txs : List Transaction)
    (hamt : ∀ tx ∈ txs, repr2dec tx.Amount) :
    loadRows (txs.map fun tx =>
      [tx.Date, tx.Category, tx.Description, formatAmount tx.Amount]) = Except.ok txs := by
  induction txs with
  | nil => rfl
  | cons tx rest ih =>
    simp only [List.map_cons, loadRows]
    rw [parseFloat_formatAmount tx.Amount (hamt tx (by simp)),
      ih (fun x hx => hamt x (by simp [hx]))]

/-- C7: serialising a table with `save()` and reloading it with
`load()` reproduces the table field-for-field, for transactions whose
amounts are exactly representable with two decimals (the delimiter-free
description hypothesis of the claim is stated but not even needed at
the record level, where the csv layer quotes/unquotes exactly). -/
theorem C7_roundTrip (txs : List Transaction)
    (hamt : ∀ tx ∈ txs, repr2dec tx.Amount)
    (hdesc : ∀ tx ∈ txs, ',' ∉ tx.Description.data) :
    loadRecords (saveRecords txs) = Except.ok txs := by
  have hcons : readAllFieldsConsistent (saveRecords txs) = true := by
    show ((txs.map fun tx =>
      [tx.Date, tx.Category, tx.Description, formatAmount tx.Amount]).all
        (fun r => r.length == expectedHeader.length)) = true
    rw [List.all_eq_true]
    intro r hr
    simp only [List.mem_map] at hr
    obtain ⟨tx, htx, rfl⟩ := hr
    rfl
  unfold loadRecords
  rw [if_neg (by rw [hcons]; simp)]
  show (if compareStringSlices expectedHeader expectedHeader = false
      then Except.error "CSV header does not match expected format"
      else loadRows (txs.map fun tx =>
        [tx.Date, tx.Category, tx.Description, formatAmount tx.Amount])) = Except.ok txs
  rw [if_neg (by decide)]
  exact loadRows_save txs hamt

/-- Witness for C7 on a concrete one-row table. -/
theorem C7_roundTrip_witness :
    loadRecords (saveRecords [⟨"2023-03-01", "Shopping", "Shirt", 2599/100⟩])
      = Except.ok [⟨"2023-03-01", "Shopping", "Shirt", 2599/100⟩] :=
  C7_roundTrip [⟨"2023-03-01", "Shopping", "Shirt", 2599/100⟩]
    (by
      intro tx htx
      simp only [List.mem_singleton] at htx
      subst htx
      exact ⟨2599, by norm_num⟩)
    (by
      intro tx htx
      simp only [List.mem_singleton] at htx
      subst htx
      decide)

-- ### C8: the graph-data series builder (internal/web/server.go, handleGraphData)

/-- A point of the `/expenses/graph-data` response. -/
structure GraphPoint where
  date : String
  spend : ℚ
  cumulative : ℚ
  budgetCum : ℚ
  saldo : ℚ
deriving DecidableEq, Repr

/-- The `daySum` map of `handleGraphData` looked up at one day's key:
the sum of amounts of transactions whose date string equals the
formatted day. -/
def daySpend (txs : List Transaction) (dt : CivilDate) : ℚ :=
  ((txs.filter (fun tx => tx.Date == formatDate dt)).map Transaction.Amount).sum

/-- The walk loop of `handleGraphData` (server.go: `for d := from;
!d.After(to); d = d.AddDate(0, 0, 1)`), fuel-driven; the top-level
call supplies fuel covering the walk exactly. -/
def graphGo (txs : List Transaction) (budget : ℚ) (toD : CivilDate) :
    Nat → CivilDate → ℚ → List GraphPoint
  | 0, _, _ => []
  | fuel + 1, d, cum =>
    if toRataDie toD < toRataDie d then []
    else
      let spend := daySpend txs d
      let budgetCum := budget * (d.day : ℚ) / (daysInMonth d.year d.month : ℚ)
      let cum' := (if d.day = 1 then 0 else cum) + spend
      ⟨formatDate d, spend, cum', budgetCum, budgetCum - cum'⟩ ::
        graphGo txs budget toD fuel (nextDay d) cum'

/-- `handleGraphData`'s series over a resolved `[from, to]` window. -/
def handleGraphData (txs : List Transaction) (budget : ℚ)
    (fromD toD : CivilDate) : List GraphPoint :=
  graphGo txs budget toD (toRataDie toD + 1 - toRataDie fromD).toNat fromD 0

/-- Modelled from the spec (§4.4 SeriesBuilder): the running
`cumulativeSpend` over consecutive walk days, reset to zero on every
day whose day-of-month is 1 (also when the walk starts mid-month). -/
def specCumSpend (txs : List Transaction) (fromD : CivilDate) : Nat → ℚ
  | 0 => daySpend txs fromD
  | j + 1 =>
    (if (nextDay^[j + 1] fromD).day = 1 then 0 else specCumSpend txs fromD j)
      + daySpend txs (nextDay^[j + 1] fromD)

/-- The point the spec prescribes for walk index `k`. -/
def specPoint (txs : List Transaction) (budget : ℚ) (fromD : CivilDate)
    (k : Nat) : GraphPoint :=
  let d := nextDay^[k] fromD
  ⟨formatDate d, daySpend txs d, specCumSpend txs fromD k,
    budget * (d.day : ℚ) / (daysInMonth d.year d.month : ℚ),
    budget * (d.day : ℚ) / (daysInMonth d.year d.month : ℚ) - specCumSpend txs fromD k⟩

theorem graphGo_spec (txs : List Transaction) (budget : ℚ)
    (fromD toD : CivilDate) (hval : fromD.valid) (n : Nat)
    (hn : (n : Int) = toRataDie toD + 1 - toRataDie fromD) :
    ∀ fuel j, fuel = n - j →
      graphGo txs budget toD fuel (nextDay^[j] fromD)
        (if j = 0 then 0 else specCumSpend txs fromD (j - 1))
      = (List.range fuel).map (fun i => specPoint txs budget fromD (j + i)) := by
  intro fuel
  induction fuel with
  | zero => intro j _; rfl
  | succ f ih =>
    intro j hfuel
    have hjn : j < n := by omega
    have hguard : ¬ (toRataDie toD < toRataDie (nextDay^[j] fromD)) := by
      rw [rd_walk fromD hval j]
      omega
    simp only [graphGo, if_neg hguard]
    have hcum : (if (nextDay^[j] fromD).day = 1 then 0
          else (if j = 0 then (0 : ℚ) else specCumSpend txs fromD (j - 1)))
        + daySpend txs (nextDay^[j] fromD) = specCumSpend txs fromD j := by
      cases j with
      | zero =>
        simp only [Function.iterate_zero_apply, specCumSpend]
        split_ifs <;> ring
      | succ k =>
        have he : (if k + 1 = 0 then (0 : ℚ) else specCumSpend txs fromD (k + 1 - 1))
            = specCumSpend txs fromD k := by
          rw [if_neg (Nat.succ_ne_zero k)]
          rfl
        rw [he]
        rfl
    rw [hcum]
    have htail : graphGo txs budget toD f (nextDay (nextDay^[j] fromD))
          (specCumSpend txs fromD j)
        = (List.range f).map (fun i => specPoint txs budget fromD (j + 1 + i)) := by
      have h2 := ih (j + 1) (by omega)
      have he : (if j + 1 = 0 then (0 : ℚ) else specCumSpend txs fromD (j + 1 - 1))
          = specCumSpend txs fromD j := by
        rw [if_neg (Nat.succ_ne_zero j)]
        rfl
      rw [Function.iterate_succ_apply', he] at h2
      exact h2
    rw [htail]
    rw [List.range_succ_eq_map, List.map_cons, List.map_map]
    congr 1
    apply List.map_congr_left
    intro i _
    simp only [Function.comp]
    congr 1
    omega

/-- C8: over a window `[from, to]`, `handleGraphData` emits one point
per calendar day inclusive; point `k` carries day `from + k` with its
exact per-day spend (zero when no transaction matches that day), a
cumulative spend that is the running sum reset to zero on every day
whose day-of-month is 1 (also when the window starts mid-month),
`cumulativeBudget = monthlyBudget * dayOfMonth / daysInMonth`, and
`saldo = cumulativeBudget - cumulativeSpend`. -/
theorem C8_seriesBuilder (txs : List Transaction) (budget : ℚ)
    (fromD toD : CivilDate) (hval : fromD.valid)
    (hle : toRataDie fromD ≤ toRataDie toD) :
    handleGraphData txs budget fromD toD
      = (List.range (toRataDie toD + 1 - toRataDie fromD).toNat).map
          (fun k => specPoint txs budget fromD k)
    ∧ (handleGraphData txs budget fromD toD).length
        = (toRataDie toD + 1 - toRataDie fromD).toNat
    ∧ ∀ dt : CivilDate, (∀ tx ∈ txs, tx.Date ≠ formatDate dt) →
        daySpend txs dt = 0 := by
  have hmain : handleGraphData txs budget fromD toD
      = (List.range (toRataDie toD + 1 - toRataDie fromD).toNat).map
          (fun k => specPoint txs budget fromD k) := by
    have hn : (((toRataDie toD + 1 - toRataDie fromD).toNat : Nat) : Int)
        = toRataDie toD + 1 - toRataDie fromD := by omega
    have := graphGo_spec txs budget fromD toD hval
      (toRataDie toD + 1 - toRataDie fromD).toNat hn
      (toRataDie toD + 1 - toRataDie fromD).toNat 0 (by omega)
    simpa [handleGraphData] using this
  refine ⟨hmain, by rw [hmain]; simp, ?_⟩
  intro dt hnone
  unfold daySpend
  have hfilt : txs.filter (fun tx => tx.Date == formatDate dt) = [] := by
    rw [List.filter_eq_nil]
    intro tx htx
    simpa using hnone tx htx
  rw [hfilt]
  rfl

/-- Witness for C8 on a window crossing a month boundary from a
mid-month start. -/
theorem C8_seriesBuilder_witness :
    handleGraphData [] 100 ⟨2025, 1, 30⟩ ⟨2025, 2, 2⟩
      = (List.range (toRataDie ⟨2025, 2, 2⟩ + 1 - toRataDie ⟨2025, 1, 30⟩).toNat).map
          (fun k => specPoint [] 100 ⟨2025, 1, 30⟩ k) :=
  (C8_seriesBuilder [] 100 ⟨2025, 1, 30⟩ ⟨2025, 2, 2⟩ (by decide) (by decide)).1

-- ### C9: bulk CSV import validation (bot handleFileUpload / web handleCSVUpload)

/-- The three row-level rejection reasons of the upload handlers. -/
inductive RowError where
  | invalidFieldCount
  | invalidAmount (s : String)
  | nonPositiveAmount
deriving DecidableEq, Repr

/-- One row's validation, in the handlers' order: field count, then
amount parse, then positivity. -/
def checkRow (r : List String) : Except RowError Transaction :=
  match r with
  | [dt, cat, desc, amt] =>
    match parseFloat amt with
    | none => Except.error (RowError.invalidAmount amt)
    | some a =>
      if a ≤ 0 then Except.error RowError.nonPositiveAmount
      else Except.ok ⟨dt, cat, desc, a⟩
  | _ => Except.error RowError.invalidFieldCount

/-- The `for i, record := range records[1:]` loop: collect every valid
transaction and every error (tagged with its line number `i + 2`),
never stopping at the first bad row. -/
def validateUploadRows (rows : List (List String)) (startLine : Nat) :
    List Transaction × List (Nat × RowError) :=
  match rows with
  | [] => ([], [])
  | r :: rest =>
    let tail := validateUploadRows rest (startLine + 1)
    match checkRow r with
    | Except.ok tx => (tx :: tail.1, tail.2)
    | Except.error e => (tail.1, (startLine, e) :: tail.2)

inductive UploadResult where
  | readError
  | emptyFile
  | badHeader
  | rejected (errors : List (Nat × RowError))
  | imported (count : Nat)
deriving DecidableEq, Repr

/-- `handleFileUpload` (bot.go lines 536-632) from the uploaded bytes
on: `csv.NewReader(...).ReadAll()` first — with the default
`FieldsPerRecord = 0` it aborts on any record whose field count
differs from the first record's, answered by the generic "Invalid CSV
format" reply (`readError`) — then the empty check, the header check,
and the row-validation loop; with any collected row-level error the
upload is reported and nothing is persisted, otherwise every valid
transaction is appended to the store. -/
def handleFileUpload (records : List (List String)) (store : List Transaction) :
    UploadResult × List Transaction :=
  if readAllFieldsConsistent records = false then (UploadResult.readError, store)
  else
    match records with
    | [] => (UploadResult.emptyFile, store)
    | header :: rows =>
      if header.length ≠ 4 ∨ compareStringSlices header expectedHeader = false then
        (UploadResult.badHeader, store)
      else
        let v := validateUploadRows rows 2
        if v.2 ≠ [] then (UploadResult.rejected v.2, store)
        else (UploadResult.imported v.1.length, store ++ v.1)

/-- `handleCSVUpload` (server.go lines 124-211): the same `ReadAll`
(including its field-count abort), header check and row validation as
the bot's file upload. -/
def handleCSVUpload (records : List (List String)) (store : List Transaction) :
    UploadResult × List Transaction :=
  if readAllFieldsConsistent records = false then (UploadResult.readError, store)
  else
    match records with
    | [] => (UploadResult.emptyFile, store)
    | header :: rows =>
      if header.length ≠ 4 ∨ compareStringSlices header expectedHeader = false then
        (UploadResult.badHeader, store)
      else
        let v := validateUploadRows rows 2
        if v.2 ≠ [] then (UploadResult.rejected v.2, store)
        else (UploadResult.imported v.1.length, store ++ v.1)

theorem validateUploadRows_errors (rows : List (List String)) (start : Nat) :
    (validateUploadRows rows start).2
      = (List.enumFrom start rows).filterMap (fun p =>
          match checkRow p.2 with
          | Except.ok _ => none
          | Except.error e => some (p.1, e)) := by
  induction rows generalizing start with
  | nil => rfl
  | cons r rest ih =>
    simp only [validateUploadRows, List.enumFrom, List.filterMap_cons]
    cases hc : checkRow r with
    | ok tx => simp only [hc, ih (start + 1)]
    | error e => simp only [hc, ih (start + 1)]

theorem rows_length_of_consistent (rows : List (List String))
    (h : readAllFieldsConsistent (expectedHeader :: rows) = true) :
    ∀ r ∈ rows, r.length = 4 := by
  intro r hr
  unfold readAllFieldsConsistent at h
  rw [List.all_eq_true] at h
  have := h r hr
  simpa using this

theorem checkRow_ne_fieldCount (r : List String) (hlen : r.length = 4)
    (e : RowError) (he : checkRow r = Except.error e) :
    e ≠ RowError.invalidFieldCount := by
  rcases r with _ | ⟨a, _ | ⟨b, _ | ⟨c, _ | ⟨d, _ | ⟨x, t⟩⟩⟩⟩⟩ <;> simp at hlen
  simp only [checkRow] at he
  rcases hp : parseFloat d with _ | v <;> simp only [hp] at he
  · have : e = RowError.invalidAmount d := (Except.error.inj he).symm
    rw [this]
    simp
  · split_ifs at he with hpos
    · have he2 : e = RowError.nonPositiveAmount := (Except.error.inj he).symm
      rw [he2]
      simp

/-- C9 counterexample: on a valid-header import whose second record
has only 2 fields, both surfaces answer with the single generic read
error (`csv.ReadAll` aborts with `ErrFieldCount` before the validation
loop) and persist nothing — not with the line-numbered field-count
entry the claim prescribes. -/
theorem C9_failFastFieldCount_counterexample :
    handleFileUpload
        [["Date", "Category", "Description", "Amount"], ["2024-01-01", "Food"]] []
      = (UploadResult.readError, ([] : List Transaction))
    ∧ handleCSVUpload
        [["Date", "Category", "Description", "Amount"], ["2024-01-01", "Food"]] []
      = (UploadResult.readError, ([] : List Transaction))
    ∧ UploadResult.readError
        ≠ UploadResult.rejected [(2, RowError.invalidFieldCount)] := by
  refine ⟨by decide, by decide, by decide⟩

/-- C9 (amended): both upload surfaces parse with `csv.ReadAll`, so a
data row with a field count other than 4 aborts the import fail-fast
with one generic read error and nothing persisted — the loop's
field-count branch is unreachable.  When the read succeeds, every data
row has exactly 4 fields and validation collects an error entry (with
its line number) for every invalid row — unparseable amount or
non-positive amount — rather than stopping at the first bad row; with
at least one invalid row, no transaction is persisted.  The two
surfaces process records identically. -/
theorem C9_bulkImportValidation (rows : List (List String)) (store : List Transaction) :
    (readAllFieldsConsistent (expectedHeader :: rows) = false →
        handleFileUpload (expectedHeader :: rows) store
          = (UploadResult.readError, store))
    ∧ (readAllFieldsConsistent (expectedHeader :: rows) = true →
        (∀ r ∈ rows, r.length = 4)
        ∧ (validateUploadRows rows 2).2
            = (List.enumFrom 2 rows).filterMap (fun p =>
                match checkRow p.2 with
                | Except.ok _ => none
                | Except.error e => some (p.1, e))
        ∧ (∀ p ∈ (validateUploadRows rows 2).2, p.2 ≠ RowError.invalidFieldCount)
        ∧ ((validateUploadRows rows 2).2 ≠ [] →
            handleFileUpload (expectedHeader :: rows) store
              = (UploadResult.rejected (validateUploadRows rows 2).2, store)))
    ∧ (∀ records st, handleFileUpload records st = handleCSVUpload records st) := by
  refine ⟨?_, ?_, fun _ _ => rfl⟩
  · intro hcons
    unfold handleFileUpload
    rw [if_pos hcons]
  · intro hcons
    have hlen := rows_length_of_consistent rows hcons
    refine ⟨hlen, validateUploadRows_errors rows 2, ?_, ?_⟩
    · intro p hp
      rw [validateUploadRows_errors] at hp
      rw [List.mem_filterMap] at hp
      obtain ⟨⟨i, r⟩, hq, hsome⟩ := hp
      obtain ⟨hb1, hb2, hb3⟩ := List.mem_enumFrom hq
      have hrmem : r ∈ rows := by
        have h4 : r = rows[i - 2] := hb3
        rw [h4]
        exact List.getElem_mem _
      rcases hc : checkRow r with e | tx <;> rw [hc] at hsome
      · have hpe : p = (i, e) := (Option.some.inj hsome).symm
        rw [hpe]
        exact checkRow_ne_fieldCount r (hlen r hrmem) e hc
      · exact absurd hsome (by simp)
    · intro hne
      simp only [handleFileUpload]
      rw [if_neg (by rw [hcons]; simp), if_neg (by decide), if_pos hne]
-- ### C10: export sorting and description sanitisation

theorem isDigitCh_bounds (c : Char) (h : isDigitCh c = true) :
    48 ≤ c.toNat ∧ c.toNat ≤ 57 := by
  unfold isDigitCh at h
  simpa [Bool.and_eq_true, decide_eq_true_eq] using h

theorem charVal_eq (c : Char) : charVal c = c.toNat - 48 := rfl

theorem valChars2_eq (a b : Char) :
    valChars [a, b] = 10 * charVal a + charVal b := by
  simp only [valChars, List.foldl]
  omega

theorem valChars4_eq (a b c d : Char) :
    valChars [a, b, c, d]
      = 1000 * charVal a + 100 * charVal b + 10 * charVal c + charVal d := by
  simp only [valChars, List.foldl]
  omega

theorem char_lt_iff (a b : Char) : a < b ↔ a.toNat < b.toNat := gt_iff_lt

theorem char_eq_iff (a b : Char) : a = b ↔ a.toNat = b.toNat := by
  constructor
  · intro h
    rw [h]
  · intro h
    have hv : a.val = b.val := by
      apply UInt32.toNat.inj
      exact h
    exact Char.eq_of_val_eq hv

theorem list_lt_cons_iff {a b : Char} {as bs : List Char} :
    (a :: as < b :: bs) ↔ (a < b ∨ (a = b ∧ as < bs)) := by
  constructor
  · intro h
    cases h with
    | cons h => exact Or.inr ⟨rfl, h⟩
    | rel h => exact Or.inl h
  · rintro (h | ⟨rfl, h⟩)
    · exact List.Lex.rel h
    · exact List.Lex.cons h

theorem list_lt_nil_iff : (([] : List Char) < []) ↔ False := by
  constructor
  · intro h
    cases h
  · exact False.elim

theorem parseDateChars_inv (cs : List Char) (dt : CivilDate)
    (h : parseDateChars cs = some dt) :
    ∃ c1 c2 c3 c4 c5 c6 c7 c8,
      cs = [c1, c2, c3, c4, '-', c5, c6, '-', c7, c8]
      ∧ isDigitCh c1 = true ∧ isDigitCh c2 = true ∧ isDigitCh c3 = true
      ∧ isDigitCh c4 = true ∧ isDigitCh c5 = true ∧ isDigitCh c6 = true
      ∧ isDigitCh c7 = true ∧ isDigitCh c8 = true
      ∧ dt.year = (valChars [c1, c2, c3, c4] : Int)
      ∧ dt.month = valChars [c5, c6]
      ∧ dt.day = valChars [c7, c8]
      ∧ dt.valid := by
  rcases cs with _ | ⟨a1, _ | ⟨a2, _ | ⟨a3, _ | ⟨a4, _ | ⟨a5, _ | ⟨a6, _ |
    ⟨a7, _ | ⟨a8, _ | ⟨a9, _ | ⟨a10, _ | ⟨a11, t⟩⟩⟩⟩⟩⟩⟩⟩⟩⟩⟩ <;>
    try (exact Option.noConfusion h)
  simp only [parseDateChars] at h
  split_ifs at h with hcond hrange
  · obtain ⟨hs1, hs2, hdig⟩ := hcond
    simp only [List.all_cons, List.all_nil, Bool.and_eq_true, and_true] at hdig
    obtain ⟨hd1, hd2, hd3, hd4, hd5, hd6, hd7, hd8⟩ := hdig
    obtain ⟨hm1, hm2, hdy1, hdy2⟩ := hrange
    cases h
    subst hs1
    subst hs2
    exact ⟨a1, a2, a3, a4, a6, a7, a9, a10, rfl, hd1, hd2, hd3, hd4, hd5, hd6,
      hd7, hd8, rfl, rfl, rfl, ⟨hm1, hm2, hdy1, hdy2⟩⟩

theorem parse_lt_iff (s t : String) (ds dt : CivilDate)
    (hs : parseDate s = some ds) (ht : parseDate t = some dt) :
    s < t ↔ toRataDie ds < toRataDie dt := by
  obtain ⟨a1, a2, a3, a4, a5, a6, a7, a8, hsa, ha1, ha2, ha3, ha4, ha5, ha6,
    ha7, ha8, hys, hms, hds, hvs⟩ := parseDateChars_inv s.data ds hs
  obtain ⟨b1, b2, b3, b4, b5, b6, b7, b8, htb, hb1, hb2, hb3, hb4, hb5, hb6,
    hb7, hb8, hyt, hmt, hdt, hvt⟩ := parseDateChars_inv t.data dt ht
  rw [rd_lt_iff ds dt hvs hvt, String.lt_iff_toList_lt]
  have hls : s.toList = [a1, a2, a3, a4, '-', a5, a6, '-', a7, a8] := hsa
  have hlt : t.toList = [b1, b2, b3, b4, '-', b5, b6, '-', b7, b8] := htb
  rw [hls, hlt]
  simp only [list_lt_cons_iff, list_lt_nil_iff, char_lt_iff, char_eq_iff]
  unfold dateLex
  rw [hys, hms, hds, hyt, hmt, hdt]
  simp only [valChars4_eq, valChars2_eq, charVal_eq]
  obtain ⟨e1, f1⟩ := isDigitCh_bounds a1 ha1
  obtain ⟨e2, f2⟩ := isDigitCh_bounds a2 ha2
  obtain ⟨e3, f3⟩ := isDigitCh_bounds a3 ha3
  obtain ⟨e4, f4⟩ := isDigitCh_bounds a4 ha4
  obtain ⟨e5, f5⟩ := isDigitCh_bounds a5 ha5
  obtain ⟨e6, f6⟩ := isDigitCh_bounds a6 ha6
  obtain ⟨e7, f7⟩ := isDigitCh_bounds a7 ha7
  obtain ⟨e8, f8⟩ := isDigitCh_bounds a8 ha8
  obtain ⟨g1, k1⟩ := isDigitCh_bounds b1 hb1
  obtain ⟨g2, k2⟩ := isDigitCh_bounds b2 hb2
  obtain ⟨g3, k3⟩ := isDigitCh_bounds b3 hb3
  obtain ⟨g4, k4⟩ := isDigitCh_bounds b4 hb4
  obtain ⟨g5, k5⟩ := isDigitCh_bounds b5 hb5
  obtain ⟨g6, k6⟩ := isDigitCh_bounds b6 hb6
  obtain ⟨g7, k7⟩ := isDigitCh_bounds b7 hb7
  obtain ⟨g8, k8⟩ := isDigitCh_bounds b8 hb8
  simp only [lt_self_iff_false, false_or, and_false, or_false, true_and]
  omega

/-- The comparator of `getAllTransactionsSortedDesc` (bot.go 406-414):
parse both dates and compare instants (`ti.After(tj)`), falling back to
string comparison when a parse fails. -/
def lessGo (a b : Transaction) : Bool :=
  match parseDate a.Date, parseDate b.Date with
  | some da, some db => decide (toRataDie db < toRataDie da)
  | _, _ => decide (b.Date < a.Date)

/-- `getAllTransactionsSortedDesc` (bot.go 404-416): `sort.Slice` with
the comparator above, modelled as a comparison sort ordered by
`le a b := ¬ less(b, a)` (sort.Slice guarantees exactly a permutation
ordered this way; it fixes no tie order, and no claim concerns ties). -/
def getAllTransactionsSortedDesc (txs : List Transaction) : List Transaction :=
  txs.mergeSort (fun a b => !(lessGo b a))

/-- `strings.ReplaceAll(desc, ",", " ")` on the single-character
pattern: map every comma to a space. -/
def replaceCommaSpace (s : String) : String :=
  ⟨s.data.map (fun c => if c = ',' then ' ' else c)⟩

/-- One attachment line (bot.go 217 / 396):
`fmt.Sprintf("%s,%s,%s,%.2f\n", ...)` with the sanitised description. -/
def exportLine (tx : Transaction) : String :=
  tx.Date ++ "," ++ tx.Category ++ "," ++ replaceCommaSpace tx.Description ++ ","
    ++ formatAmount tx.Amount ++ "\n"

/-- The `/export` attachment (bot.go 390-401). -/
def handleExport (txs : List Transaction) : String :=
  "Date,Category,Description,Amount\n"
    ++ String.join ((getAllTransactionsSortedDesc txs).map exportLine)

/-- The `/report` CSV attachment (bot.go 212-221), textually the same
construction as `/export`. -/
def handleDailyReportAttachment (txs : List Transaction) : String :=
  "Date,Category,Description,Amount\n"
    ++ String.join ((getAllTransactionsSortedDesc txs).map exportLine)

/-- Modelled from the claim: `a` precedes `b` in date-descending order
(parse-failing dates ordered by string comparison). -/
def dateDescRel (a b : Transaction) : Prop :=
  match parseDate a.Date, parseDate b.Date with
  | some da, some db => toRataDie db ≤ toRataDie da
  | _, _ => b.Date ≤ a.Date

theorem lessGo_eq_string (a b : Transaction) :
    lessGo a b = decide (b.Date < a.Date) := by
  unfold lessGo
  cases ha : parseDate a.Date with
  | none => cases hb : parseDate b.Date <;> rfl
  | some da =>
    cases hb : parseDate b.Date with
    | none => rfl
    | some db =>
      have hiff := parse_lt_iff b.Date a.Date db da hb ha
      exact decide_eq_decide.mpr hiff.symm

theorem goLe_eq (a b : Transaction) :
    (!(lessGo b a)) = decide (b.Date ≤ a.Date) := by
  rw [lessGo_eq_string, ← decide_not]
  exact decide_eq_decide.mpr not_lt

theorem goLe_trans (a b c : Transaction)
    (h1 : (!(lessGo b a)) = true) (h2 : (!(lessGo c b)) = true) :
    (!(lessGo c a)) = true := by
  rw [goLe_eq, decide_eq_true_eq] at h1 h2 ⊢
  exact le_trans h2 h1

theorem goLe_total (a b : Transaction) :
    ((!(lessGo b a)) || (!(lessGo a b))) = true := by
  rw [goLe_eq, goLe_eq]
  rcases le_total b.Date a.Date with h | h
  · rw [decide_eq_true h]
    rfl
  · rw [decide_eq_true h]
    simp

theorem goLe_imp_dateDescRel (a b : Transaction)
    (h : (!(lessGo b a)) = true) : dateDescRel a b := by
  rw [goLe_eq, decide_eq_true_eq] at h
  unfold dateDescRel
  cases ha : parseDate a.Date with
  | none => cases hb : parseDate b.Date <;> exact h
  | some da =>
    cases hb : parseDate b.Date with
    | none => exact h
    | some db =>
      show toRataDie db ≤ toRataDie da
      by_contra hlt
      push_neg at hlt
      have := (parse_lt_iff a.Date b.Date da db ha hb).mpr hlt
      exact absurd this (not_lt.mpr h)

theorem sortedDesc_pairwise (txs : List Transaction) :
    List.Pairwise dateDescRel (getAllTransactionsSortedDesc txs) := by
  have hp := List.sorted_mergeSort goLe_trans goLe_total txs
  exact hp.imp (fun h => goLe_imp_dateDescRel _ _ h)

theorem sortedDesc_concrete :
    getAllTransactionsSortedDesc
      [⟨"2024-01-01", "A", "x", 1⟩, ⟨"2025-01-01", "B", "y", 2⟩]
      = [⟨"2025-01-01", "B", "y", 2⟩, ⟨"2024-01-01", "A", "x", 1⟩] := by
  have hperm := List.mergeSort_perm
    [(⟨"2024-01-01", "A", "x", 1⟩ : Transaction), ⟨"2025-01-01", "B", "y", 2⟩]
    (fun a b => !(lessGo b a))
  have hpair := List.sorted_mergeSort goLe_trans goLe_total
    [(⟨"2024-01-01", "A", "x", 1⟩ : Transaction), ⟨"2025-01-01", "B", "y", 2⟩]
  have hlen : (getAllTransactionsSortedDesc
      [(⟨"2024-01-01", "A", "x", 1⟩ : Transaction), ⟨"2025-01-01", "B", "y", 2⟩]).length
      = 2 := hperm.length_eq
  show getAllTransactionsSortedDesc _ = _
  obtain ⟨p, q, hre⟩ : ∃ p q, getAllTransactionsSortedDesc
      [(⟨"2024-01-01", "A", "x", 1⟩ : Transaction), ⟨"2025-01-01", "B", "y", 2⟩]
      = [p, q] := by
    rcases hr2 : getAllTransactionsSortedDesc
        [(⟨"2024-01-01", "A", "x", 1⟩ : Transaction), ⟨"2025-01-01", "B", "y", 2⟩]
      with _ | ⟨p, _ | ⟨q, _ | ⟨z, t⟩⟩⟩
    · rw [hr2] at hlen; simp at hlen
    · rw [hr2] at hlen; simp at hlen
    · exact ⟨p, q, rfl⟩
    · rw [hr2] at hlen; simp at hlen
  show getAllTransactionsSortedDesc _ = _
  rw [hre]
  rw [show getAllTransactionsSortedDesc
      [(⟨"2024-01-01", "A", "x", 1⟩ : Transaction), ⟨"2025-01-01", "B", "y", 2⟩]
      = List.mergeSort
          [(⟨"2024-01-01", "A", "x", 1⟩ : Transaction), ⟨"2025-01-01", "B", "y", 2⟩]
          (fun a b => !(lessGo b a)) from rfl] at hre
  rw [hre] at hperm hpair
  have hple : (!(lessGo q p)) = true := by
    have := (List.pairwise_cons.mp hpair).1 q (by simp)
    exact this
  have hpmem : p ∈ [(⟨"2024-01-01", "A", "x", 1⟩ : Transaction),
      ⟨"2025-01-01", "B", "y", 2⟩] := hperm.subset (by simp)
  simp only [List.mem_cons, List.mem_singleton, List.not_mem_nil, or_false] at hpmem
  rcases hpmem with hp | hp
  · exfalso
    rw [hp] at hperm hple
    have hq : q = ⟨"2025-01-01", "B", "y", 2⟩ := by
      have h2 := hperm.cons_inv
      rw [List.perm_singleton] at h2
      exact List.singleton_inj.mp h2
    rw [hq] at hple
    exact absurd hple (by decide)
  · rw [hp] at hperm ⊢
    have hq : q = ⟨"2024-01-01", "A", "x", 1⟩ := by
      have h2 : ([(⟨"2025-01-01", "B", "y", 2⟩ : Transaction), q]).Perm
          [⟨"2025-01-01", "B", "y", 2⟩, ⟨"2024-01-01", "A", "x", 1⟩] :=
        hperm.trans (List.Perm.swap _ _ [])
      have h3 := h2.cons_inv
      rw [List.perm_singleton] at h3
      exact List.singleton_inj.mp h3
    rw [hq]

/-- C10: the export and report attachments list transactions sorted by
date descending (newest first; string comparison for parse-failing
dates), a permutation of — not generally equal to — the store's
insertion order (witnessed by a concrete two-row table given oldest
first), and every comma in a description field is replaced by a space
in the attachment line. -/
theorem C10_exportSortedDesc (txs : List Transaction) :
    ((getAllTransactionsSortedDesc txs).Perm txs)
    ∧ List.Pairwise dateDescRel (getAllTransactionsSortedDesc txs)
    ∧ handleExport txs
        = "Date,Category,Description,Amount\n"
          ++ String.join ((getAllTransactionsSortedDesc txs).map exportLine)
    ∧ handleDailyReportAttachment txs = handleExport txs
    ∧ (∀ s : String, (replaceCommaSpace s).data
          = s.data.map (fun c => if c = ',' then ' ' else c)
        ∧ ',' ∉ (replaceCommaSpace s).data)
    ∧ getAllTransactionsSortedDesc
        [⟨"2024-01-01", "A", "x", 1⟩, ⟨"2025-01-01", "B", "y", 2⟩]
        = [⟨"2025-01-01", "B", "y", 2⟩, ⟨"2024-01-01", "A", "x", 1⟩] := by
  refine ⟨List.mergeSort_perm txs _, sortedDesc_pairwise txs, rfl, rfl, ?_,
    sortedDesc_concrete⟩
  intro s
  refine ⟨rfl, ?_⟩
  intro hmem
  rw [show (replaceCommaSpace s).data
      = s.data.map (fun c => if c = ',' then ' ' else c) from rfl] at hmem
  rw [List.mem_map] at hmem
  obtain ⟨c, _, hc⟩ := hmem
  by_cases hcomma : c = ','
  · rw [if_pos hcomma] at hc
    exact absurd hc (by decide)
  · rw [if_neg hcomma] at hc
    exact hcomma (hc ▸ rfl)
